import Mathlib

/-!
Verification development for the IMMP chat-bridge core: a shallow embedding
of the rich-text interval algorithms (Telegram entity decoding, Slack mrkdwn
parse/render) and of the command registry and dispatcher
(`immp/hook/command.py`), together with theorems settling the specification
claims about them.

Python strings are modelled as `List Char` (sequences of code points), dicts
as insertion-ordered association lists, and fallible code as `Except`.
-/

namespace IMMP

/-- Attribute field names used as keys of the change-map in the interval
algorithms, and as attribute names of `Segment`. -/
inductive Field where
  | bold
  | italic
  | strike
  | code
  | pre
  | link
deriving DecidableEq, Repr

/-- Value stored in the change-map for a field: a boolean for formatting
flags, an optional URL for the link field. -/
inductive AttrVal where
  | flag (b : Bool)
  | url (u : Option (List Char))
deriving DecidableEq, Repr

/-- `imirror.core.message.Segment`: the smallest unit of uniformly formatted
text (spec data model, used by the constructors in both transport files). -/
structure Segment where
  text : List Char
  bold : Bool := false
  italic : Bool := false
  strike : Bool := false
  code : Bool := false
  pre : Bool := false
  link : Option (List Char) := none
deriving DecidableEq, Repr

/-- Apply one keyword attribute (as passed via `**changes[start]`) to a
segment.  Only the pairings that actually occur in the two transports are
meaningful; a mismatched pairing (never produced by the code) is ignored. -/
def Segment.applyChange (s : Segment) : Field × AttrVal → Segment
  | (.bold, .flag b) => { s with bold := b }
  | (.italic, .flag b) => { s with italic := b }
  | (.strike, .flag b) => { s with strike := b }
  | (.code, .flag b) => { s with code := b }
  | (.pre, .flag b) => { s with pre := b }
  | (.link, .url u) => { s with link := u }
  | (_, _) => s

/-- Apply a whole inner change dict to a fresh segment, as
`Segment(part, **changes[start])` does. -/
def Segment.applyChanges (s : Segment) (l : List (Field × AttrVal)) : Segment :=
  l.foldl Segment.applyChange s

/-- Python dict assignment `d[k] = v` on an insertion-ordered association
list: update in place when the key exists, otherwise append at the end. -/
def upsert {α β : Type} [DecidableEq α] : List (α × β) → α → β → List (α × β)
  | [], k, v => [(k, v)]
  | (k', v') :: rest, k, v =>
    if k = k' then (k, v) :: rest else (k', v') :: upsert rest k v

/-- The change-map `defaultdict(dict)`: offset, then field, to value;
both levels insertion-ordered. -/
def Changes : Type := List (Nat × List (Field × AttrVal))

/-- `changes[k][f] = v` on the two-level insertion-ordered map. -/
def recordChange : Changes → Nat → Field → AttrVal → Changes
  | [], k, f, v => [(k, [(f, v)])]
  | (k', inner) :: rest, k, f, v =>
    if k = k' then (k', upsert inner f v) :: rest
    else (k', inner) :: recordChange rest k f v

/-- Read `changes[k]`, defaulting to the empty dict as `defaultdict` does. -/
def changesAt (ch : Changes) (k : Nat) : List (Field × AttrVal) :=
  match ch.find? (fun p => p.1 = k) with
  | some p => p.2
  | none => []

/-- Python slice `s[a:b]` (for non-negative bounds): empty when `a ≥ b`,
clamped at the ends. -/
def pyslice (s : List Char) (a b : Nat) : List Char :=
  (s.take b).drop a

/-! ## Telegram transport (`imirror/transport/telegram.py`) -/

/-- A Telegram `MessageEntity` as validated by `_Schema.entity`: a type
string, an offset and a length. -/
structure TgEntity where
  type : String
  offset : Nat
  length : Nat
deriving DecidableEq, Repr

/-- The segment-attribute field named by a Telegram entity type, for the four
types the code keeps; `none` for every other type (skipped by the loop). -/
def fieldOfType : String → Option Field
  | "bold" => some .bold
  | "italic" => some .italic
  | "code" => some .code
  | "pre" => some .pre
  | _ => none

/-- `TelegramRichText.from_entities`: build the change-map from the entity
list, then cut the text at the recorded offsets, in the insertion order of
the change-map's keys, exactly as `zip([0] + points, points + [len(text)])`
does. -/
def from_entities (text : List Char) (entities : List TgEntity) : List Segment :=
  let changes : Changes := entities.foldl
    (fun ch ent =>
      match fieldOfType ent.type with
      | none => ch
      | some f =>
        let start := ent.offset
        let e := start + ent.length
        recordChange (recordChange ch start f (.flag true)) e f (.flag false))
    []
  let points := changes.map (fun p => p.1)
  let pairs := List.zip (0 :: points) (points ++ [text.length])
  pairs.foldl
    (fun segs se =>
      if se.1 = se.2 then segs
      else segs ++ [Segment.applyChanges { text := pyslice text se.1 se.2 } (changesAt changes se.1)])
    []

/-- `TelegramSegment.to_html`: emit at most one construct per segment, by the
`if`/`elif` chain of the source. -/
def to_html (segment : Segment) : List Char :=
  let text := segment.text
  match segment.link with
  | some url => ("<a href=" ++ "\"").data ++ url ++ ("\"" ++ ">").data ++ text ++ ("</a>").data
  | none =>
    if segment.pre then ("<pre>").data ++ text ++ ("</pre>").data
    else if segment.code then ("<code>").data ++ text ++ ("</code>").data
    else if segment.bold then ("<b>").data ++ text ++ ("</b>").data
    else if segment.italic then ("<i>").data ++ text ++ ("</i>").data
    else text

/-- The single formatting construct a segment may be wrapped in. -/
inductive HtmlWrap where
  | anchor (url : List Char)
  | pre
  | code
  | bold
  | italic
  | plain
deriving DecidableEq, Repr

/-- The construct selected by the fixed precedence the claim states:
link over pre over code over bold over italic. -/
def claimedChoice (s : Segment) : HtmlWrap :=
  match s.link with
  | some url => .anchor url
  | none =>
    if s.pre then .pre
    else if s.code then .code
    else if s.bold then .bold
    else if s.italic then .italic
    else .plain

/-- Rendering of one chosen construct around the segment text. -/
def renderWrap : HtmlWrap → List Char → List Char
  | .anchor url, text =>
    ("<a href=" ++ "\"").data ++ url ++ ("\"" ++ ">").data ++ text ++ ("</a>").data
  | .pre, text => ("<pre>").data ++ text ++ ("</pre>").data
  | .code, text => ("<code>").data ++ text ++ ("</code>").data
  | .bold, text => ("<b>").data ++ text ++ ("</b>").data
  | .italic, text => ("<i>").data ++ text ++ ("</i>").data
  | .plain, text => text

/-! ## Command hook (`immp/hook/command.py`) -/

/-- `immp.OpenState` (spec §3 lifecycle states; the value type is trivial and
only `active` is consulted by `discover`). -/
inductive OpenState where
  | inactive
  | starting
  | active
  | stopping
  | failed
deriving DecidableEq, Repr

/-- `CommandParser`: how the trailing argument text is split. -/
inductive CommandParser where
  | spaces
  | shlex
  | none
deriving DecidableEq, Repr

/-- `CommandScope`: channel types a command is available in. -/
inductive CommandScope where
  | anywhere
  | private_
  | shared
deriving DecidableEq, Repr

/-- `CommandRole`: user types a command is available to. -/
inductive CommandRole where
  | anyone
  | admin
deriving DecidableEq, Repr

/-- One entry of `inspect.signature(fn).parameters` after skipping `self` and
`msg` (`Command._args`): whether its default is `Parameter.empty`, and
whether it is `VAR_POSITIONAL`.  (Keyword-only parameters are rejected at
`Command` construction and never reach `valid`.) -/
structure Param where
  hasDefault : Bool
  variadic : Bool
deriving DecidableEq, Repr

/-- `Command`: immutable container of a command function.  `name` is stored
lowercased by `__init__`; `params` models `Command._args`; `test` models the
optional enable predicate `cmd.test(hook)` evaluated at the owning hook
(a pure read of hook state, so a fixed boolean per hook instance). -/
structure Command where
  name : String
  parser : CommandParser := .spaces
  scope : CommandScope := .anywhere
  role : CommandRole := .anyone
  test : Option Bool := Option.none
  params : List Param := []
deriving DecidableEq, Repr

/-- `BoundCommand`: pairing of a hook instance (identified by name) and a
command, created fresh on every attribute access. -/
structure BoundCommand where
  hookName : String
  cmd : Command
deriving DecidableEq, Repr

/-- `BoundCommand.applicable(private, admin)`: the scope/role/test filter.
The final branch mirrors `bool(self.test())` where `BoundCommand.test`
returns `cmd.test(hook)` when a predicate is set and `True` otherwise. -/
def BoundCommand.applicable (bc : BoundCommand) (priv admin : Bool) : Bool :=
  if bc.cmd.scope = .private_ ∧ priv = false then false
  else if bc.cmd.scope = .shared ∧ priv = true then false
  else if bc.cmd.role = .admin ∧ admin = false then false
  else bc.cmd.test.getD true

/-- `Command.valid(*args)` as a boolean: `true` when no `ValueError` is
raised for `nargs` parsed arguments. -/
def validArgs (params : List Param) (nargs : Nat) : Bool :=
  let required := (params.filter (fun p => !p.hasDefault)).length
  let varargs := (params.filter (fun p => p.variadic)).length
  let required := required - varargs
  if nargs < required then false
  else if nargs > params.length ∧ varargs = 0 then false
  else true

/-- Number of required non-variadic parameters, as the claim words it. -/
def requiredNonVariadic (params : List Param) : Nat :=
  (params.filter (fun p => !p.hasDefault ∧ !p.variadic)).length

/-- A hook instance: its name, lifecycle state, and the `Command` objects
found among its attributes (in `dir()` order). -/
structure Hook where
  name : String
  state : OpenState
  attrs : List Command
deriving DecidableEq, Repr

/-- `imirror`/`immp` `Channel` (core entity, spec §3): owning plug name, an
opaque source identifier, and the `is_private()` result.  Channels compare
structurally. -/
structure Channel where
  plugName : String
  source : Nat
  priv : Bool
deriving DecidableEq, Repr

/-- `User` (core entity): optional owning plug name and identifier. -/
structure User where
  plug : Option String
  id : String
deriving DecidableEq, Repr

/-- One named group of the hook config. -/
structure Group where
  anywhere : List String := []
  private_ : List String := []
  shared : List String := []
  channels : List String := []
  hooks : List String := []
  sets : List String := []
  admins : List (String × List String) := []
deriving DecidableEq, Repr

/-- The `CommandHook` config: ordered command markers (`prefix` key),
`return-errors`, named command sets (set label → hook name → command names)
and named groups (in dict-value order). -/
structure Config where
  pfx : List (List Char) := []
  returnErrors : Bool := false
  sets : List (String × List (String × List String)) := []
  groups : List Group := []
deriving DecidableEq, Repr

/-- The host registry consulted by the hook. -/
structure Host where
  channels : List (String × Channel) := []
  hooks : List (String × Hook) := []
  resources : List (String × Hook) := []
deriving DecidableEq, Repr

/-- Python exceptions surfaced by `commands()`. -/
inductive PyErr where
  | keyError
  | configError
deriving DecidableEq, Repr

/-- `CommandHook._hook`: look the name up in `host.hooks`, else scan
`host.resources` values for a hook with that name, else `KeyError`. -/
def getHook (host : Host) (name : String) : Except PyErr Hook :=
  match host.hooks.find? (fun p => p.1 = name) with
  | some p => .ok p.2
  | none =>
    match host.resources.find? (fun p => p.2.name = name) with
    | some p => .ok p.2
    | none => .error .keyError

/-- `CommandHook.discover`: a non-active hook yields nothing; an active hook
yields its command attributes keyed by name (a dict, so a later attribute
with the same name overwrites the value). -/
def discover (hook : Hook) : List (String × BoundCommand) :=
  if hook.state ≠ .active then []
  else hook.attrs.foldl (fun d cmd => upsert d cmd.name ⟨hook.name, cmd⟩) []

/-- The short-circuiting `any(channel == self.host.channels[label] ...)`
over a group's channel list; a missing label raises `KeyError` only when
reached. -/
def anyChannelIs (host : Host) (channel : Channel) : List String → Except PyErr Bool
  | [] => .ok false
  | label :: rest =>
    match host.channels.find? (fun p => p.1 = label) with
    | none => .error .keyError
    | some p =>
      if channel = p.2 then .ok true else anyChannelIs host channel rest

/-- The matching test for one group: the channel's plug is in
`anywhere + private` and the channel is private, or in `anywhere + shared`
and it is not, or the channel equals one listed under `channels`. -/
def groupMatches (host : Host) (channel : Channel) (group : Group) :
    Except PyErr Bool :=
  let aw := group.anywhere
  if channel.plugName ∈ aw ++ group.private_ ∧ channel.priv = true then .ok true
  else if channel.plugName ∈ aw ++ group.shared ∧ channel.priv = false then .ok true
  else anyChannelIs host channel group.channels

/-- The group-matching loop of `commands()` over the configured groups in
order. -/
def matchLoop (host : Host) (channel : Channel) : List Group → Except PyErr (List Group)
  | [] => .ok []
  | g :: rest => do
    let m ← groupMatches host channel g
    let more ← matchLoop host channel rest
    .ok (if m then g :: more else more)

/-- The groups matching the channel context. -/
def matchingGroups (cfg : Config) (host : Host) (channel : Channel) :
    Except PyErr (List Group) :=
  matchLoop host channel cfg.groups

/-- `admin = user.plug and user.id in (group["admins"].get(user.plug.name) or [])`. -/
def isAdmin (group : Group) (user : User) : Bool :=
  match user.plug with
  | Option.none => false
  | some p =>
    user.id ∈ (((group.admins.find? (fun q => q.1 = p)).map (fun q => q.2)).getD [])

/-- Occurrences contributed by `for name in group["hooks"]`: every discovered
command of every listed hook.  Each `discover` call builds fresh
`BoundCommand` objects, so occurrences from different calls are distinct
Python set elements; the model therefore concatenates without dedup. -/
def hookOcc (host : Host) : List String → Except PyErr (List BoundCommand)
  | [] => .ok []
  | n :: rest => do
    let h ← getHook host n
    let more ← hookOcc host rest
    .ok ((discover h).map (fun p => p.2) ++ more)

/-- `set(discovered[cmd] for cmd in cmdset)`: every name is looked up (a
missing one raises `KeyError`), and duplicates collapse because equal names
in one discovered dict denote the same object. -/
def setCmds (discovered : List (String × BoundCommand)) :
    List String → Except PyErr (List BoundCommand)
  | [] => .ok []
  | c :: rest => do
    let bc ← match discovered.find? (fun p => p.1 = c) with
      | some p => .ok p.2
      | Option.none => .error PyErr.keyError
    let more ← setCmds discovered rest
    .ok (if bc ∈ more then more else bc :: more)

/-- Occurrences contributed by one set label's inner dict
(`for name, cmdset in self.config["sets"][label].items()`). -/
def setEntryOcc (host : Host) : List (String × List String) → Except PyErr (List BoundCommand)
  | [] => .ok []
  | (n, cmdset) :: rest => do
    let h ← getHook host n
    let these ← setCmds (discover h) cmdset
    let more ← setEntryOcc host rest
    .ok (these ++ more)

/-- Occurrences contributed by `for label in group["sets"]`; a label missing
from the config's `sets` raises `KeyError`. -/
def setsOcc (cfg : Config) (host : Host) : List String → Except PyErr (List BoundCommand)
  | [] => .ok []
  | label :: rest => do
    let inner ← match cfg.sets.find? (fun p => p.1 = label) with
      | some p => .ok p.2
      | Option.none => .error PyErr.keyError
    let these ← setEntryOcc host inner
    let more ← setsOcc cfg host rest
    .ok (these ++ more)

/-- `cmdgroup` for one matching group: hook-listed occurrences then
set-listed occurrences. -/
def groupOcc (cfg : Config) (host : Host) (group : Group) :
    Except PyErr (List BoundCommand) := do
  let fromHooks ← hookOcc host group.hooks
  let fromSets ← setsOcc cfg host group.sets
  .ok (fromHooks ++ fromSets)

/-- Accumulate, across the matched groups in order, each group's occurrences
that pass `applicable(private, admin)` for that group's admin verdict. -/
def applicableLoop (cfg : Config) (host : Host) (channel : Channel) (user : User) :
    List Group → Except PyErr (List BoundCommand)
  | [] => .ok []
  | g :: rest => do
    let occ ← groupOcc cfg host g
    let more ← applicableLoop cfg host channel user rest
    .ok (occ.filter (fun bc => bc.applicable channel.priv (isAdmin g user)) ++ more)

/-- The `cmds` set of `commands()`.  All elements are fresh objects in
Python, so the set holds one element per occurrence. -/
def applicableOcc (cfg : Config) (host : Host) (channel : Channel) (user : User) :
    Except PyErr (List BoundCommand) := do
  let groups ← matchingGroups cfg host channel
  applicableLoop cfg host channel user groups

/-- Build `mapped = {cmd.name: cmd for cmd in cmds}`. -/
def nameDict (occ : List BoundCommand) : List (String × BoundCommand) :=
  occ.foldl (fun d bc => upsert d bc.cmd.name bc) []

/-- `CommandHook.commands(channel, user)`: the name-keyed mapping, raising
`ConfigError` when keying by name collapsed at least two set elements
(`len(cmds) > len(mapped)`). -/
def commandsE (cfg : Config) (host : Host) (channel : Channel) (user : User) :
    Except PyErr (List (String × BoundCommand)) := do
  let cmds ← applicableOcc cfg host channel user
  let mapped := nameDict cmds
  if mapped.length < cmds.length then .error .configError else .ok mapped

/-- The ambient state `commands()` can read: the full config and host
registry (hook states included).  The Python method performs no assignment
to any of it, so the state-threaded embedding returns it unchanged. -/
structure World where
  cfg : Config
  host : Host
deriving DecidableEq, Repr

/-- `commands()` as a state-threading computation: result plus the world
after the call. -/
def commandsRun (w : World) (channel : Channel) (user : User) :
    Except PyErr (List (String × BoundCommand)) × World :=
  (commandsE w.cfg w.host channel user, w)

/-! ### Dispatcher (`CommandHook.on_receive`) -/

/-- Python `str.isspace` members for the ASCII range (the characters the
dispatcher's `split()` treats as separators). -/
def pyIsSpace (c : Char) : Bool :=
  c = ' ' ∨ c = '\t' ∨ c = '\n' ∨ c = '\r' ∨ c = '\x0b' ∨ c = '\x0c'

/-- Python `str.lower` (ASCII case mapping suffices for the texts here). -/
def pyLower (s : List Char) : List Char :=
  s.map Char.toLower

/-- Python `s.split(maxsplit=1)` with no separator: drop leading whitespace;
empty or all-whitespace gives `[]`; otherwise the first whitespace-free token
and, when anything follows the separator run after it, the untouched
remainder. -/
def splitMax1 (s : List Char) : List (List Char) :=
  let s1 := s.dropWhile pyIsSpace
  if s1 = [] then []
  else
    let tok := s1.takeWhile (fun c => !pyIsSpace c)
    let rest := (s1.dropWhile (fun c => !pyIsSpace c)).dropWhile pyIsSpace
    if rest = [] then [tok] else [tok, rest]

/-- Outcome of the prefix-match-and-split stage of `on_receive`. -/
inductive ParseOutcome where
  | noMatch
  | indexError
  | cmd (name : List Char) (trailing : Option (List Char))
deriving DecidableEq, Repr

/-- The `for prefix in self.config["prefix"]` loop: on the first marker `p`
with `plain.lower().startswith(p)`, strip `len(p)` characters from the
original text and split; `raw[0]` on an empty split raises `IndexError`;
falling off the loop (`else: return`) produces no output. -/
def dispatchParse (pfxs : List (List Char)) (plain : List Char) : ParseOutcome :=
  match pfxs with
  | [] => .noMatch
  | p :: rest =>
    if p.isPrefixOf (pyLower plain) then
      match splitMax1 (plain.drop p.length) with
      | [] => .indexError
      | [t] => .cmd (pyLower t) Option.none
      | t :: tr :: _ => .cmd (pyLower t) (some tr)
    else dispatchParse rest plain

/-- The first configured marker the lowercased text starts with. -/
def firstHit (pfxs : List (List Char)) (plain : List Char) : Option (List Char) :=
  pfxs.find? (fun p => p.isPrefixOf (pyLower plain))

/-- A Python exception as classified by the dispatcher's `except` clauses:
`BadUsage`, another `Exception` subclass (with class name and `str(e)`), or
an exception deriving only from `BaseException` (such as `SystemExit`),
which `except Exception` does not catch. -/
inductive PyExc where
  | badUsage
  | exc (cls : List Char) (msg : List Char)
  | baseOnly (cls : List Char)
deriving DecidableEq, Repr

/-- What the awaited command body did. -/
inductive BodyOutcome where
  | ok
  | raised (e : PyExc)
deriving DecidableEq, Repr

/-- Observable effect of the dispatch call site. -/
inductive DispatchEffect where
  | completed
  | helpText
  | errorNote (text : List Char)
  | loggedOnly
  | propagated (e : PyExc)
deriving DecidableEq, Repr

/-- The channel reply `"\N{WARNING SIGN} {}"` with
`": ".join(filter(None, (e.__class__.__name__, str(e))))`. -/
def warnText (cls msg : List Char) : List Char :=
  '⚠' :: ' ' :: (List.intercalate (": ").data ([cls, msg].filter (fun s => s ≠ [])))

/-- The `try`/`except` around `await cmd(sent, *args)`: `BadUsage` yields the
help text; any other `Exception` subclass is logged and, only under
`return-errors`, summarised to the channel; an exception outside the
`Exception` hierarchy is caught by neither clause and propagates. -/
def dispatchBody (returnErrors : Bool) : BodyOutcome → DispatchEffect
  | .ok => .completed
  | .raised .badUsage => .helpText
  | .raised (.exc cls msg) =>
    if returnErrors then .errorNote (warnText cls msg) else .loggedOnly
  | .raised (.baseOnly cls) => .propagated (.baseOnly cls)

/-! ## Slack transport (`imirror/transport/slack.py`)

`SlackRichText._format_regex` is
`(?<![0-9a-z*_~\\])(```|[*_~`])(?![\s\x01])(.+?)(?<![\s\x01\\])\1(?![0-9a-z*_~])`
(`\1` inside a character class is the octal escape for U+0001, not a
backreference, so the "current formatting character" of the comment is not
actually excluded).  The functions below implement Python `re.search`
semantics for exactly this pattern: leftmost match, `` ``` `` preferred over
a single character at the same position, lazy content, `.` excluding
newlines, with the three look-around guards. -/

/-- The backquote character. -/
def btick : Char := Char.ofNat 96

/-- The three-backquote tag. -/
def preTag : List Char := [btick, btick, btick]

/-- Membership in the "outside" guard class `[0-9a-z*_~]` (uppercase letters
are absent: the pattern is compiled without `IGNORECASE`). -/
def outsideChar (c : Char) : Bool :=
  c.isDigit || ('a' ≤ c && c ≤ 'z') || c = '*' || c = '_' || c = '~'

/-- Membership in the tag alternation class `[*_~`]`. -/
def tagChar (c : Char) : Bool :=
  c = '*' || c = '_' || c = '~' || c = btick

/-- Membership in the "inside" guard class `[\s\x01]`. -/
def insideBad (c : Char) : Bool :=
  pyIsSpace c || c = '\x01'

/-- The literal tag occurs at position `i`. -/
def tagAt (s : List Char) (i : Nat) (tag : List Char) : Bool :=
  tag.isPrefixOf (s.drop i)

/-- Opening lookbehind `(?<![0-9a-z*_~\\])`: satisfied at the string start
or when the previous character avoids the class. -/
def lookbehindOpenOk (s : List Char) (i : Nat) : Bool :=
  if i = 0 then true
  else
    match s[i - 1]? with
    | some c => !(outsideChar c || c = '\\')
    | none => true

/-- The closing tag matches at position `p`: the tag text, the closing
lookbehind `(?<![\s\x01\\])` on the last content character, and the closing
lookahead `(?![0-9a-z*_~])` after the tag. -/
def closerOk (s : List Char) (tag : List Char) (p : Nat) : Bool :=
  tagAt s p tag &&
  (if p = 0 then false
   else
     match s[p - 1]? with
     | some c => !(insideBad c || c = '\\')
     | none => false) &&
  (match s[p + tag.length]? with
   | some c => !outsideChar c
   | none => true)

/-- Lazy scan of `(.+?)` for the earliest valid closer at or after `p`:
try to close, otherwise consume one more content character (which `.`
forbids to be a newline). -/
def lazyScan (s : List Char) (tag : List Char) : Nat → Nat → Option Nat
  | 0, _ => none
  | fuel + 1, p =>
    if closerOk s tag p then some p
    else
      match s[p]? with
      | some c => if c = '\n' then none else lazyScan s tag fuel (p + 1)
      | none => none

/-- A regex match of the format pattern: start offset, matched tag, end
offset (one past the closing tag). -/
structure FmtMatch where
  start : Nat
  tag : List Char
  stop : Nat
deriving DecidableEq, Repr

/-- Try one alternation branch at position `i`: the tag text, the opening
lookahead `(?![\s\x01])`, at least one content character, and the lazy
closer scan. -/
def tryTag (s : List Char) (i : Nat) (tag : List Char) : Option FmtMatch :=
  if tagAt s i tag then
    match s[i + tag.length]? with
    | some c =>
      if insideBad c then none
      else
        match lazyScan s tag (s.length + 1) (i + tag.length + 1) with
        | some p => some ⟨i, tag, p + tag.length⟩
        | none => none
    | none => none
  else none

/-- Try a match starting at `i`: opening lookbehind, then `` ``` `` before
the single-character branch (alternation order). -/
def tryMatchAt (s : List Char) (i : Nat) : Option FmtMatch :=
  if lookbehindOpenOk s i then
    match tryTag s i preTag with
    | some m => some m
    | none =>
      match s[i]? with
      | some c => if tagChar c then tryTag s i [c] else none
      | none => none
  else none

/-- Scan start positions left to right (leftmost match wins). -/
def searchFromAux (s : List Char) : Nat → Nat → Option FmtMatch
  | 0, _ => none
  | fuel + 1, i =>
    match tryMatchAt s i with
    | some m => some m
    | none => searchFromAux s fuel (i + 1)

/-- `re.search` of the format pattern (no match can start at the final
position, which needs at least three further characters). -/
def findFormatMatch (s : List Char) : Option FmtMatch :=
  searchFromAux s s.length 0

/-- `cls.tags[tag]`: the segment field a tag toggles. -/
def slackTagField (tag : List Char) : Field :=
  if tag = ['*'] then .bold
  else if tag = ['_'] then .italic
  else if tag = ['~'] then .strike
  else if tag = [btick] then .code
  else .pre

/-- The `while True` loop of `from_mrkdwn`: find a match, strip the two tag
occurrences from the text, and record the applied range in the change-map.
Each iteration removes at least two characters, so the initial length is
enough fuel. -/
def stripLoop : Nat → List Char → Changes → (List Char × Changes)
  | 0, text, ch => (text, ch)
  | fuel + 1, text, ch =>
    match findFormatMatch text with
    | none => (text, ch)
    | some m =>
      let inner := pyslice text (m.start + m.tag.length) (m.stop - m.tag.length)
      let text2 := text.take m.start ++ inner ++ text.drop m.stop
      let e := m.stop - 2 * m.tag.length
      let f := slackTagField m.tag
      stripLoop fuel text2 (recordChange (recordChange ch m.start f (.flag true)) e f (.flag false))

/-- Advance `j` over the run of characters satisfying `pred`. -/
def runWhile (s : List Char) (pred : Char → Bool) : Nat → Nat → Nat
  | 0, j => j
  | fuel + 1, j =>
    match s[j]? with
    | some c => if pred c then runWhile s pred fuel (j + 1) else j
    | none => j

/-- A match of the link pattern `<([^@#\|][^\|>]*)(?:\|([^>]+))?>`:
start offset, target group, optional label group, end offset. -/
structure LinkMatch where
  start : Nat
  g1 : List Char
  g2 : Option (List Char)
  stop : Nat
deriving DecidableEq, Repr

/-- Try the link pattern at position `i`.  Group 1 is one character outside
`@#|` followed by the run outside `|>`; since that run can contain neither
`|` nor `>`, the regex engine's backtracking cannot shrink it, so the scan
is deterministic. -/
def findLinkAt (s : List Char) (i : Nat) : Option LinkMatch :=
  if s[i]? = some '<' then
    match s[i + 1]? with
    | some c0 =>
      if c0 = '@' || c0 = '#' || c0 = '|' then none
      else
        let j := runWhile s (fun c => !(c = '|' || c = '>')) (s.length + 1) (i + 2)
        match s[j]? with
        | some '>' => some ⟨i, pyslice s (i + 1) j, Option.none, j + 1⟩
        | some '|' =>
          let k := runWhile s (fun c => !(c = '>')) (s.length + 1) (j + 1)
          if j + 1 < k ∧ s[k]? = some '>' then
            some ⟨i, pyslice s (i + 1) j, some (pyslice s (j + 1) k), k + 1⟩
          else none
        | _ => none
    | none => none
  else none

/-- `re.finditer` of the link pattern: non-overlapping matches, scanning
left to right and resuming at each match end. -/
def findLinks (s : List Char) : Nat → Nat → List LinkMatch
  | 0, _ => []
  | fuel + 1, i =>
    if i < s.length then
      match findLinkAt s i with
      | some m => m :: findLinks s fuel m.stop
      | none => findLinks s fuel (i + 1)
    else []

/-- The external environment consulted by `from_mrkdwn`: the cached Slack
workspace state used by the substitutions (user id to username, channel id
to name), and the external library function `emoji.emojize(part,
use_aliases=True)` applied to every part before the substitutions.  The
library function rewrites `:alias:` sequences it recognises and returns
any other text unchanged, so in particular it is the identity on text
containing no colon; the default instantiation is that identity, exact for
every colon-free input. -/
structure SlackCtx where
  users : List (List Char × List Char) := []
  channels : List (List Char × List Char) := []
  emojize : List Char → List Char := fun s => s

/-- `re.sub` driver: walk the text; at a match emit the replacement and
resume at the match end, otherwise copy one character.  The matcher may
raise (`KeyError` on an unknown user or channel id). -/
def reSubAux (m : List Char → Nat → Except PyErr (Option (Nat × List Char)))
    (s : List Char) : Nat → Nat → Except PyErr (List Char)
  | 0, _ => .ok []
  | fuel + 1, i =>
    match s[i]? with
    | none => .ok []
    | some c =>
      match m s i with
      | .error e => .error e
      | .ok (some (stop, rep)) => do
        let rest ← reSubAux m s fuel stop
        .ok (rep ++ rest)
      | .ok Option.none => do
        let rest ← reSubAux m s fuel (i + 1)
        .ok (c :: rest)

/-- `_sub_user` matcher for `<@([^\|>]+)(?:\|[^>]+)?>`: replace with
`@{username}` from the user cache (`KeyError` when absent). -/
def userMention (ctx : SlackCtx) (s : List Char) (i : Nat) :
    Except PyErr (Option (Nat × List Char)) :=
  if s[i]? = some '<' ∧ s[i + 1]? = some '@' then
    let j := runWhile s (fun c => !(c = '|' || c = '>')) (s.length + 1) (i + 2)
    if i + 2 < j then
      let finish : Nat → Except PyErr (Option (Nat × List Char)) := fun stop =>
        match ctx.users.find? (fun p => p.1 = pyslice s (i + 2) j) with
        | some p => .ok (some (stop, '@' :: p.2))
        | Option.none => .error .keyError
      match s[j]? with
      | some '>' => finish (j + 1)
      | some '|' =>
        let k := runWhile s (fun c => !(c = '>')) (s.length + 1) (j + 1)
        if j + 1 < k ∧ s[k]? = some '>' then finish (k + 1) else .ok Option.none
      | _ => .ok Option.none
    else .ok Option.none
  else .ok Option.none

/-- `_sub_channel` matcher for `<#([^\|>]+)(?:\|[^>]+)?>`: replace with
`#{name}` from the channel cache. -/
def channelMention (ctx : SlackCtx) (s : List Char) (i : Nat) :
    Except PyErr (Option (Nat × List Char)) :=
  if s[i]? = some '<' ∧ s[i + 1]? = some '#' then
    let j := runWhile s (fun c => !(c = '|' || c = '>')) (s.length + 1) (i + 2)
    if i + 2 < j then
      let finish : Nat → Except PyErr (Option (Nat × List Char)) := fun stop =>
        match ctx.channels.find? (fun p => p.1 = pyslice s (i + 2) j) with
        | some p => .ok (some (stop, '#' :: p.2))
        | Option.none => .error .keyError
      match s[j]? with
      | some '>' => finish (j + 1)
      | some '|' =>
        let k := runWhile s (fun c => !(c = '>')) (s.length + 1) (j + 1)
        if j + 1 < k ∧ s[k]? = some '>' then finish (k + 1) else .ok Option.none
      | _ => .ok Option.none
    else .ok Option.none
  else .ok Option.none

/-- `_sub_link` matcher for `<([^\|>]+)(?:\|([^>]+))?>`: replace with the
label when present, else the target (`match.group(2) or match.group(1)`;
group 2 is nonempty whenever present). -/
def linkReplace (s : List Char) (i : Nat) :
    Except PyErr (Option (Nat × List Char)) :=
  if s[i]? = some '<' then
    let j := runWhile s (fun c => !(c = '|' || c = '>')) (s.length + 1) (i + 1)
    if i + 1 < j then
      match s[j]? with
      | some '>' => .ok (some (j + 1, pyslice s (i + 1) j))
      | some '|' =>
        let k := runWhile s (fun c => !(c = '>')) (s.length + 1) (j + 1)
        if j + 1 < k ∧ s[k]? = some '>' then .ok (some (k + 1, pyslice s (j + 1) k))
        else .ok Option.none
      | _ => .ok Option.none
    else .ok Option.none
  else .ok Option.none

/-- The segmentation loop of `from_mrkdwn` over the breakpoint pairs:
skip equal pairs, then emojize, substitute user mentions, channel mentions
and links, and emit the segment with the transition dict at the span
start. -/
def segLoop (ctx : SlackCtx) (text1 : List Char) (ch2 : Changes) :
    List (Nat × Nat) → Except PyErr (List Segment)
  | [] => .ok []
  | (a, b) :: rest =>
    if a = b then segLoop ctx text1 ch2 rest
    else do
      let part1 ← reSubAux (userMention ctx) (ctx.emojize (pyslice text1 a b))
        ((ctx.emojize (pyslice text1 a b)).length + 1) 0
      let part2 ← reSubAux (channelMention ctx) part1 (part1.length + 1) 0
      let part3 ← reSubAux linkReplace part2 (part2.length + 1) 0
      let more ← segLoop ctx text1 ch2 rest
      .ok (Segment.applyChanges { text := part3 } (changesAt ch2 a) :: more)

/-- `SlackRichText.from_mrkdwn`: strip formatting into the change-map,
record link ranges, then cut the text at the recorded offsets in
change-map insertion order. -/
def from_mrkdwn (ctx : SlackCtx) (text : List Char) : Except PyErr (List Segment) :=
  let tc := stripLoop text.length text []
  let links := findLinks tc.1 (tc.1.length + 1) 0
  let ch2 := links.foldl
    (fun ch m =>
      recordChange (recordChange ch m.start .link (.url (some m.g1))) m.stop .link
        (.url Option.none))
    tc.2
  let points := ch2.map (fun p => p.1)
  segLoop ctx tc.1 ch2 (List.zip (0 :: points) (points ++ [tc.1.length]))

/-- A character free of every mrkdwn control meaning: not a formatting tag,
not the escape character, not the reference opener, not a newline (excluded
by the regex dot), not the U+0001 guard character, and not the colon of the
`:alias:` emoji syntax rewritten by `emoji.emojize`. -/
def delimFree (c : Char) : Bool :=
  !tagChar c && !(c = '\\') && !(c = '<') && !(c = '\n') && !(c = '\x01') &&
  !(c = ':')

/-- Two segments carry the identical attribute set. -/
def sameAttrs (a b : Segment) : Bool :=
  a.bold = b.bold && a.italic = b.italic && a.strike = b.strike &&
  a.code = b.code && a.pre = b.pre && a.link = b.link

/-- Merge a pending segment with the following run of identically-attributed
segments. -/
def mergeRunsGo (a : Segment) : List Segment → List Segment
  | [] => [a]
  | b :: rest =>
    if sameAttrs a b then mergeRunsGo { a with text := a.text ++ b.text } rest
    else a :: mergeRunsGo b rest

/-- Merge adjacent segments sharing an attribute set. -/
def mergeRuns : List Segment → List Segment
  | [] => []
  | a :: rest => mergeRunsGo a rest

/-- Modelled from the spec: `RichText.normalise` (`imirror.core.message`,
not under `src/`) — "after normalize(), no two adjacent segments share an
identical attribute set, and no segment has empty text; normalize is
idempotent".  Empty segments are dropped, then adjacent segments with
identical attribute sets are merged. -/
def normalise (l : List Segment) : List Segment :=
  mergeRuns (l.filter (fun s => s.text ≠ []))

/-- `getattr(segment, attr)` for the attribute names in `cls.tags.values()`
(the `link` case is unreachable from `tagsList`). -/
def fmtFlag (s : Segment) : Field → Bool
  | .bold => s.bold
  | .italic => s.italic
  | .strike => s.strike
  | .code => s.code
  | .pre => s.pre
  | .link => false

/-- `cls.tags.items()` in dict order. -/
def tagsList : List (List Char × Field) :=
  [(['*'], .bold), (['_'], .italic), (['~'], .strike), ([btick], .code), (preTag, .pre)]

/-- `cls.tags[tag]` for a tag drawn from `active` (always a key). -/
def tagFieldOf (tag : List Char) : Field :=
  match tagsList.find? (fun p => p.1 = tag) with
  | some p => p.2
  | none => .bold

/-- One segment step of `to_mrkdwn`.  Iterating `reversed(active)` while
removing each closed tag by value equals emitting, last-opened first, the
tags whose attribute turned false and keeping the rest in order (the
elements of `active` are pairwise distinct, and a removal only drops the
element just yielded).  Then new tags open in `cls.tags` order, and the
segment text is emitted, as `<url|text>` when a link is set. -/
def renderSeg (acc : List Char × List (List Char)) (segment : Segment) :
    List Char × List (List Char) :=
  let closed := (acc.2.filter (fun tag => !fmtFlag segment (tagFieldOf tag))).reverse
  let text := acc.1 ++ closed.flatten
  let active := acc.2.filter (fun tag => fmtFlag segment (tagFieldOf tag))
  let opened := tagsList.foldl
    (fun (ta : List Char × List (List Char)) tf =>
      if fmtFlag segment tf.2 && !(ta.2.contains tf.1) then (ta.1 ++ tf.1, ta.2 ++ [tf.1])
      else ta)
    (text, active)
  match segment.link with
  | some url => (opened.1 ++ '<' :: (url ++ '|' :: (segment.text ++ ['>'])), opened.2)
  | Option.none => (opened.1 ++ segment.text, opened.2)

/-- `SlackRichText.to_mrkdwn`: walk the normalised segments tracking open
tags, then close the remainder last-opened first. -/
def to_mrkdwn (rich : List Segment) : List Char :=
  let fin := (normalise rich).foldl renderSeg ([], [])
  fin.1 ++ fin.2.reverse.flatten

/-! ### Concrete configurations used to settle the resolution claims -/

/-- A plain `help` command (scope anywhere, role anyone, no test). -/
def exC1_help : Command := { name := "help" }

/-- One active hook `h` exposing only `help`. -/
def exC1_host : Host := { hooks := [("h", ⟨"h", .active, [exC1_help]⟩)] }

/-- Two groups that both enable hook `h` for plug `p`. -/
def exC1_cfg : Config :=
  { groups := [{ anywhere := ["p"], hooks := ["h"] },
               { anywhere := ["p"], hooks := ["h"] }] }

/-- A single group enabling hook `h` for plug `p`. -/
def exC1_cfg1 : Config := { groups := [{ anywhere := ["p"], hooks := ["h"] }] }

/-- Two distinct active hooks that each expose a `help` command. -/
def exC1_host2 : Host :=
  { hooks := [("h1", ⟨"h1", .active, [exC1_help]⟩),
              ("h2", ⟨"h2", .active, [exC1_help]⟩)] }

/-- Two overlapping groups enabling the two distinct hooks for plug `p`. -/
def exC1_cfg2 : Config :=
  { groups := [{ anywhere := ["p"], hooks := ["h1"] },
               { anywhere := ["p"], hooks := ["h2"] }] }

/-- A private channel on plug `p`. -/
def exC1_ch : Channel := ⟨"p", 0, true⟩

/-- A plugless user. -/
def exC1_user : User := ⟨Option.none, "u"⟩

/-- The bound `help` of hook `h`. -/
def exC1_bc : BoundCommand := ⟨"h", exC1_help⟩

/-- A plain `ping` command used to exercise the scope filter. -/
def exC6_cmd : Command := { name := "ping" }

/-- One active hook exposing `ping`. -/
def exC6_host : Host := { hooks := [("h", ⟨"h", .active, [exC6_cmd]⟩)] }

/-- One group enabling hook `h` for plug `p`. -/
def exC6_cfg : Config := { groups := [{ anywhere := ["p"], hooks := ["h"] }] }

/-- A non-private channel on plug `p`. -/
def exC6_ch : Channel := ⟨"p", 0, false⟩

/-- A plugless (hence never admin) user. -/
def exC6_user : User := ⟨Option.none, "u"⟩

end IMMP

/-! ## Theorems -/

namespace IMMP

/-- Keys of a dict after `d[k] = v`: unchanged when the key was present,
appended otherwise. -/
theorem upsert_keys {α β : Type} [DecidableEq α] (d : List (α × β)) (k : α) (v : β) :
    (upsert d k v).map Prod.fst =
      if k ∈ d.map Prod.fst then d.map Prod.fst else d.map Prod.fst ++ [k] := by
  induction d with
  | nil => simp [upsert]
  | cons q rest ih =>
    rcases q with ⟨k', v'⟩
    by_cases hk : k = k'
    · subst hk
      simp [upsert]
    · rw [show upsert ((k', v') :: rest) k v = (k', v') :: upsert rest k v from by
        simp [upsert, hk]]
      by_cases hm : k ∈ rest.map Prod.fst
      · simp [hm, hk, ih]
      · simp [hm, hk, ih]

/-- Length of a dict after `d[k] = v`. -/
theorem upsert_length {α β : Type} [DecidableEq α] (d : List (α × β)) (k : α) (v : β) :
    (upsert d k v).length =
      if k ∈ d.map Prod.fst then d.length else d.length + 1 := by
  have h := upsert_keys d k v
  have h1 : (upsert d k v).length = ((upsert d k v).map Prod.fst).length := by
    simp
  rw [h1, h]
  split_ifs <;> simp

/-- Entries of a dict after `d[k] = v` come from `d` or are the new pair. -/
theorem mem_upsert {α β : Type} [DecidableEq α] (d : List (α × β)) (k : α) (v : β)
    (p : α × β) (h : p ∈ upsert d k v) : p ∈ d ∨ p = (k, v) := by
  induction d with
  | nil =>
    simp [upsert] at h
    exact Or.inr h
  | cons q rest ih =>
    rcases q with ⟨k', v'⟩
    by_cases hk : k = k'
    · subst hk
      simp [upsert] at h
      rcases h with h | h
      · exact Or.inr h
      · exact Or.inl (List.mem_cons_of_mem _ h)
    · rw [show upsert ((k', v') :: rest) k v = (k', v') :: upsert rest k v from by
        simp [upsert, hk]] at h
      rcases List.mem_cons.mp h with h | h
      · exact Or.inl (h ▸ List.mem_cons_self _ _)
      · rcases ih h with h | h
        · exact Or.inl (List.mem_cons_of_mem _ h)
        · exact Or.inr h

/-- The dict build of `mapped` never grows beyond one entry per set element. -/
theorem nameDict_go_le (occ : List BoundCommand) :
    ∀ d : List (String × BoundCommand),
      (occ.foldl (fun d bc => upsert d bc.cmd.name bc) d).length ≤ d.length + occ.length := by
  induction occ with
  | nil => intro d; simp
  | cons bc rest ih =>
    intro d
    rw [List.foldl_cons]
    have h := ih (upsert d bc.cmd.name bc)
    have hu : (upsert d bc.cmd.name bc).length ≤ d.length + 1 := by
      rw [upsert_length]
      split_ifs <;> omega
    simp only [List.length_cons]
    omega

/-- The dict build of `mapped` keeps one entry per element exactly when the
names are pairwise distinct and fresh relative to the seed dict. -/
theorem nameDict_go_eq_iff (occ : List BoundCommand) :
    ∀ d : List (String × BoundCommand),
      ((occ.foldl (fun d bc => upsert d bc.cmd.name bc) d).length = d.length + occ.length) ↔
        ((occ.map (fun bc => bc.cmd.name)).Nodup ∧
          ∀ bc ∈ occ, bc.cmd.name ∉ d.map Prod.fst) := by
  induction occ with
  | nil => intro d; simp
  | cons bc rest ih =>
    intro d
    rw [List.foldl_cons]
    by_cases hm : bc.cmd.name ∈ d.map Prod.fst
    · have hle := nameDict_go_le rest (upsert d bc.cmd.name bc)
      have hlen : (upsert d bc.cmd.name bc).length = d.length := by
        rw [upsert_length, if_pos hm]
      constructor
      · intro he
        exfalso
        rw [hlen] at hle
        simp only [List.length_cons] at he
        omega
      · rintro ⟨-, hall⟩
        exact absurd hm (hall bc (List.mem_cons_self _ _))
    · have hlen : (upsert d bc.cmd.name bc).length = d.length + 1 := by
        rw [upsert_length, if_neg hm]
      have hkeys : (upsert d bc.cmd.name bc).map Prod.fst =
          d.map Prod.fst ++ [bc.cmd.name] := by
        rw [upsert_keys, if_neg hm]
      rw [show d.length + (bc :: rest).length = (upsert d bc.cmd.name bc).length + rest.length
        from by simp [hlen]; omega]
      rw [ih (upsert d bc.cmd.name bc), hkeys]
      simp only [List.map_cons, List.nodup_cons, List.mem_cons, List.mem_append,
        List.mem_singleton, List.mem_map]
      constructor
      · rintro ⟨hnd, hall⟩
        refine ⟨⟨?_, hnd⟩, ?_⟩
        · rintro ⟨bc', hbc', hname⟩
          exact hall bc' hbc' (Or.inr (Or.inl hname))
        · rintro bc' (rfl | hbc')
          · intro hmem
            exact hm (by simpa using hmem)
          · intro hmem
            exact hall bc' hbc' (Or.inl (by simpa using hmem))
      · rintro ⟨⟨hnotin, hnd⟩, hall⟩
        refine ⟨hnd, fun bc' hbc' => ?_⟩
        rintro (hmem | heq | hnil)
        · exact hall bc' (Or.inr hbc') (by simpa using hmem)
        · exact hnotin ⟨bc', hbc', heq⟩
        · simp at hnil

/-- `len(cmds) > len(mapped)` holds exactly when two set elements share a
lowercase name. -/
theorem nameDict_length_lt_iff (occ : List BoundCommand) :
    (nameDict occ).length < occ.length ↔
      ¬ (occ.map (fun bc => bc.cmd.name)).Nodup := by
  have hle := nameDict_go_le occ []
  have hiff := nameDict_go_eq_iff occ []
  have h0 : (([] : List (String × BoundCommand))).length = 0 := rfl
  rw [h0, Nat.zero_add] at hle
  rw [h0, Nat.zero_add] at hiff
  unfold nameDict
  constructor
  · intro hlt hnd
    have he := hiff.mpr ⟨hnd, by simp⟩
    omega
  · intro hnd
    have hne : (occ.foldl (fun d bc => upsert d bc.cmd.name bc) []).length ≠ occ.length :=
      fun he => hnd (hiff.mp he).1
    omega

/-- Every entry of `mapped` comes from some accumulated set element, keyed by
its name. -/
theorem mem_nameDict_go (occ : List BoundCommand) :
    ∀ (d : List (String × BoundCommand)) (p : String × BoundCommand),
      p ∈ occ.foldl (fun d bc => upsert d bc.cmd.name bc) d →
      p ∈ d ∨ ∃ bc ∈ occ, p = (bc.cmd.name, bc) := by
  induction occ with
  | nil =>
    intro d p h
    exact Or.inl h
  | cons bc rest ih =>
    intro d p h
    rw [List.foldl_cons] at h
    rcases ih (upsert d bc.cmd.name bc) p h with h' | ⟨bc', hbc', rfl⟩
    · rcases mem_upsert d bc.cmd.name bc p h' with h'' | rfl
      · exact Or.inl h''
      · exact Or.inr ⟨bc, List.mem_cons_self _ _, rfl⟩
    · exact Or.inr ⟨bc', List.mem_cons_of_mem _ hbc', rfl⟩

/-- Every element accumulated by the group loop passed the `applicable`
filter for some matching group. -/
theorem mem_applicableLoop (cfg : Config) (host : Host) (channel : Channel) (user : User) :
    ∀ (gs : List Group) (occ : List BoundCommand),
      applicableLoop cfg host channel user gs = .ok occ →
      ∀ bc ∈ occ, ∃ g ∈ gs, bc.applicable channel.priv (isAdmin g user) = true := by
  intro gs
  induction gs with
  | nil =>
    intro occ h bc hm
    simp only [applicableLoop] at h
    cases h
    simp at hm
  | cons g rest ih =>
    intro occ h bc hm
    cases hg : groupOcc cfg host g with
    | error e =>
      simp [applicableLoop, hg, Except.bind, Bind.bind] at h
    | ok og =>
      cases hr : applicableLoop cfg host channel user rest with
      | error e =>
        simp [applicableLoop, hg, hr, Except.bind, Bind.bind] at h
      | ok orest =>
        simp only [applicableLoop, hg, hr, Bind.bind, Except.bind, Except.ok.injEq] at h
        subst h
        rcases List.mem_append.mp hm with hmf | hmr
        · exact ⟨g, List.mem_cons_self _ _, (List.mem_filter.mp hmf).2⟩
        · rcases ih orest hr bc hmr with ⟨g', hg', happ⟩
          exact ⟨g', List.mem_cons_of_mem _ hg', happ⟩

/-- What a successful `applicable` verdict says about scope and role. -/
theorem applicable_scope_role (bc : BoundCommand) (priv admin : Bool)
    (h : bc.applicable priv admin = true) :
    (priv = false → bc.cmd.scope ≠ .private_) ∧
    (priv = true → bc.cmd.scope ≠ .shared) ∧
    (admin = false → bc.cmd.role ≠ .admin) := by
  unfold BoundCommand.applicable at h
  split_ifs at h with h1 h2 h3
  exact ⟨fun hp hs => h1 ⟨hs, hp⟩, fun hp hs => h2 ⟨hs, hp⟩, fun ha hr => h3 ⟨hr, ha⟩⟩

/-- Inversion of a successful `commands()` call: the mapping is the
name-keyed dict of some successfully accumulated occurrence list. -/
theorem commandsE_ok_inv (cfg : Config) (host : Host) (channel : Channel) (user : User)
    (m : List (String × BoundCommand)) (h : commandsE cfg host channel user = .ok m) :
    ∃ occ, applicableOcc cfg host channel user = .ok occ ∧ m = nameDict occ := by
  unfold commandsE at h
  cases ha : applicableOcc cfg host channel user with
  | error e =>
    rw [ha] at h
    simp [Except.bind, Bind.bind] at h
  | ok occ =>
    rw [ha] at h
    simp only [Bind.bind, Except.bind] at h
    split_ifs at h
    cases h
    exact ⟨occ, rfl, rfl⟩

/-- Inversion of a successful occurrence accumulation: the group-matching
loop succeeded and the per-group loop ran over its result. -/
theorem applicableOcc_ok_inv (cfg : Config) (host : Host) (channel : Channel) (user : User)
    (occ : List BoundCommand) (h : applicableOcc cfg host channel user = .ok occ) :
    ∃ gs, matchingGroups cfg host channel = .ok gs ∧
      applicableLoop cfg host channel user gs = .ok occ := by
  unfold applicableOcc at h
  cases hg : matchingGroups cfg host channel with
  | error e =>
    rw [hg] at h
    simp [Except.bind, Bind.bind] at h
  | ok gs =>
    rw [hg] at h
    simp only [Bind.bind, Except.bind] at h
    exact ⟨gs, rfl, h⟩

/-- Upserting a pair puts it in the dict. -/
theorem upsert_self_mem {α β : Type} [DecidableEq α] (d : List (α × β)) (k : α) (v : β) :
    (k, v) ∈ upsert d k v := by
  induction d with
  | nil => simp [upsert]
  | cons q rest ih =>
    rcases q with ⟨k', v'⟩
    by_cases hk : k = k'
    · subst hk
      simp [upsert]
    · rw [show upsert ((k', v') :: rest) k v = (k', v') :: upsert rest k v from by
        simp [upsert, hk]]
      exact List.mem_cons_of_mem _ ih

/-- Upserting a different key keeps an entry. -/
theorem mem_upsert_of_ne {α β : Type} [DecidableEq α] (d : List (α × β)) (k' : α) (v' : β)
    (p : α × β) (hp : p ∈ d) (hne : p.1 ≠ k') : p ∈ upsert d k' v' := by
  induction d with
  | nil => simp at hp
  | cons q rest ih =>
    rcases q with ⟨k0, v0⟩
    by_cases hk : k' = k0
    · subst hk
      rw [show upsert ((k', v0) :: rest) k' v' = (k', v') :: rest from by simp [upsert]]
      rcases List.mem_cons.mp hp with rfl | hp'
      · exact absurd rfl hne
      · exact List.mem_cons_of_mem _ hp'
    · rw [show upsert ((k0, v0) :: rest) k' v' = (k0, v0) :: upsert rest k' v' from by
        simp [upsert, hk]]
      rcases List.mem_cons.mp hp with rfl | hp'
      · exact List.mem_cons_self _ _
      · exact List.mem_cons_of_mem _ (ih hp')

/-- The dict build keeps entries whose key is never upserted again. -/
theorem mem_foldl_of_fresh (occ : List BoundCommand) :
    ∀ (d : List (String × BoundCommand)) (p : String × BoundCommand), p ∈ d →
      p.1 ∉ occ.map (fun bc => bc.cmd.name) →
      p ∈ occ.foldl (fun d bc => upsert d bc.cmd.name bc) d := by
  induction occ with
  | nil => intro d p hp _; exact hp
  | cons x rest ih =>
    intro d p hp hfresh
    rw [List.foldl_cons]
    simp only [List.map_cons, List.mem_cons, not_or] at hfresh
    exact ih _ p (mem_upsert_of_ne d _ x p hp hfresh.1) hfresh.2

/-- With pairwise distinct names, every set element appears in the built
dict under its name. -/
theorem mem_nameDict_of_mem (occ : List BoundCommand) :
    ∀ (d : List (String × BoundCommand)) (bc : BoundCommand), bc ∈ occ →
      ((d.map Prod.fst) ++ occ.map (fun bc => bc.cmd.name)).Nodup →
      (bc.cmd.name, bc) ∈ occ.foldl (fun d bc => upsert d bc.cmd.name bc) d := by
  induction occ with
  | nil => intro d bc hbc _; simp at hbc
  | cons x rest ih =>
    intro d bc hbc hnd
    rw [List.foldl_cons]
    rcases List.mem_cons.mp hbc with rfl | hbc'
    · refine mem_foldl_of_fresh rest _ _ (upsert_self_mem d _ _) ?_
      have h2 : ((bc.cmd.name :: rest.map (fun bc => bc.cmd.name))).Nodup := by
        have := hnd.of_append_right
        simpa using this
      exact (List.nodup_cons.mp h2).1
    · refine ih _ bc hbc' ?_
      have hkeys := upsert_keys d x.cmd.name x
      by_cases hm : x.cmd.name ∈ d.map Prod.fst
      · rw [hkeys, if_pos hm]
        refine List.Nodup.sublist ?_ hnd
        refine List.Sublist.append_left ?_ _
        simp
      · rw [hkeys, if_neg hm]
        rw [List.append_assoc, List.singleton_append]
        simpa using hnd

/-- Characterisation of the built dict's entries when names are pairwise
distinct. -/
theorem mem_nameDict_iff (occ : List BoundCommand)
    (hnd : (occ.map (fun bc => bc.cmd.name)).Nodup) (p : String × BoundCommand) :
    p ∈ nameDict occ ↔ p.2 ∈ occ ∧ p.1 = p.2.cmd.name := by
  unfold nameDict
  constructor
  · intro hp
    rcases mem_nameDict_go occ [] p hp with h | ⟨bc, hbc, rfl⟩
    · simp at h
    · exact ⟨hbc, rfl⟩
  · rintro ⟨hmem, heq⟩
    rcases p with ⟨k, bc⟩
    simp only at heq
    subst heq
    exact mem_nameDict_of_mem occ [] bc hmem (by simpa using hnd)

/-- The built mapping does not depend on the iteration order of the `cmds`
set: permuting the occurrence list (under distinct names, the non-raising
case) yields a dict with exactly the same entries. -/
theorem nameDict_perm_invariant (occ occ' : List BoundCommand)
    (hperm : occ.Perm occ') (hnd : (occ.map (fun bc => bc.cmd.name)).Nodup) :
    ∀ p, p ∈ nameDict occ ↔ p ∈ nameDict occ' := by
  have hnd' : (occ'.map (fun bc => bc.cmd.name)).Nodup :=
    ((hperm.map (fun bc => bc.cmd.name)).nodup_iff).mp hnd
  intro p
  rw [mem_nameDict_iff occ hnd p, mem_nameDict_iff occ' hnd' p]
  exact and_congr_left (fun _ => hperm.mem_iff)

/-- Claim C1 (counterexample): `commands()` can raise `ConfigError` even
when no two distinct applicable commands share a name.  A single hook's
single `help` command, reachable through two overlapping groups, is
discovered twice as two fresh `BoundCommand` objects; the occurrence list
holds one distinct command, yet resolution raises instead of returning the
one-entry mapping. -/
theorem commands_single_command_overlap_raises :
    applicableOcc exC1_cfg exC1_host exC1_ch exC1_user = .ok [exC1_bc, exC1_bc] ∧
    (([exC1_bc, exC1_bc].dedup).map (fun bc => bc.cmd.name)).Nodup ∧
    commandsE exC1_cfg exC1_host exC1_ch exC1_user = .error .configError := by
  refine ⟨by rfl, by decide, by rfl⟩

/-- Claim C1 (amended): given the applicable command occurrences gathered
from all matching groups (where a command discovered by several groups, or
by both a hook listing and a set listing, counts once per discovery),
`commands(channel, user)` raises `ConfigError` exactly when two occurrences
share a lowercase name, and returns the mapping otherwise; in particular two
distinct active hooks each exposing `help`, enabled for the same channel by
overlapping groups, cause a `ConfigError`. -/
theorem commands_ambiguity_iff_duplicate_occurrence_names :
    (∀ (cfg : Config) (host : Host) (channel : Channel) (user : User)
      (occ : List BoundCommand),
      applicableOcc cfg host channel user = .ok occ →
      (commandsE cfg host channel user = .error .configError ↔
        ¬ (occ.map (fun bc => bc.cmd.name)).Nodup)) ∧
    commandsE exC1_cfg2 exC1_host2 exC1_ch exC1_user = .error .configError := by
  constructor
  · intro cfg host channel user occ h
    unfold commandsE
    rw [h]
    simp only [Bind.bind, Except.bind]
    by_cases hlt : (nameDict occ).length < occ.length
    · rw [if_pos hlt]
      exact iff_of_true rfl ((nameDict_length_lt_iff occ).mp hlt)
    · rw [if_neg hlt]
      have hnd : (occ.map (fun bc => bc.cmd.name)).Nodup := by
        by_contra hc
        exact hlt ((nameDict_length_lt_iff occ).mpr hc)
      exact iff_of_false (fun hc => Except.noConfusion hc) (fun hc => hc hnd)
  · rfl

/-- Claim C1 witness: on a clean single-group configuration the occurrence
list is a single `help`, and the amended equivalence instantiates to a
non-raising resolution. -/
theorem commands_ambiguity_iff_duplicate_occurrence_names_witness :
    commandsE exC1_cfg1 exC1_host exC1_ch exC1_user = .error .configError ↔
      ¬ (([exC1_bc]).map (fun bc => bc.cmd.name)).Nodup :=
  commands_ambiguity_iff_duplicate_occurrence_names.1 exC1_cfg1 exC1_host exC1_ch
    exC1_user [exC1_bc] (by rfl)

/-- Claim C6: whenever `commands()` returns a mapping, no private-only
command appears for a non-private channel, no shared-only command appears
for a private channel, and when the user is an admin of no matching group no
admin-only command appears. -/
theorem commands_scope_role_filtering :
    ∀ (cfg : Config) (host : Host) (channel : Channel) (user : User)
      (m : List (String × BoundCommand)),
      commandsE cfg host channel user = .ok m →
      (channel.priv = false → ∀ p ∈ m, p.2.cmd.scope ≠ .private_) ∧
      (channel.priv = true → ∀ p ∈ m, p.2.cmd.scope ≠ .shared) ∧
      ((∀ gs, matchingGroups cfg host channel = .ok gs →
          ∀ g ∈ gs, isAdmin g user = false) →
        ∀ p ∈ m, p.2.cmd.role ≠ .admin) := by
  intro cfg host channel user m h
  obtain ⟨occ, hocc, rfl⟩ := commandsE_ok_inv cfg host channel user m h
  obtain ⟨gs, hgs, hloop⟩ := applicableOcc_ok_inv cfg host channel user occ hocc
  have hmem : ∀ p ∈ nameDict occ,
      ∃ g ∈ gs, p.2.applicable channel.priv (isAdmin g user) = true := by
    intro p hp
    rcases mem_nameDict_go occ [] p hp with hnil | ⟨bc, hbc, rfl⟩
    · simp at hnil
    · exact mem_applicableLoop cfg host channel user gs occ hloop bc hbc
  refine ⟨?_, ?_, ?_⟩
  · intro hpriv p hp
    obtain ⟨g, -, happ⟩ := hmem p hp
    exact (applicable_scope_role _ _ _ happ).1 hpriv
  · intro hpriv p hp
    obtain ⟨g, -, happ⟩ := hmem p hp
    exact (applicable_scope_role _ _ _ happ).2.1 hpriv
  · intro hadmin p hp
    obtain ⟨g, hg, happ⟩ := hmem p hp
    exact (applicable_scope_role _ _ _ happ).2.2 (hadmin gs hgs g hg)

/-- Claim C6 witness: instantiated on a concrete non-private channel with a
successfully resolved mapping. -/
theorem commands_scope_role_filtering_witness :
    (("ping", (⟨"h", exC6_cmd⟩ : BoundCommand)).2.cmd.scope ≠ CommandScope.private_) :=
  (commands_scope_role_filtering exC6_cfg exC6_host exC6_ch exC6_user
      [("ping", ⟨"h", exC6_cmd⟩)] (by rfl)).1 (by rfl) _ (by simp)

/-- Claim C2: the decoder does not use the sorted union of the referenced
offsets.  With the annotations supplied as `(italic, 5, 5)` then
`(bold, 0, 5)` over a ten-character text, the change-map keys stay in
insertion order `5, 10, 0`, and the pair walk emits a segment with empty
text (the inverted span `text[10:0]`) followed by a duplicated full-width
span — contradicting "exactly one segment, never one with empty text, for
each consecutive breakpoint pair forming a non-empty span". -/
theorem from_entities_unsorted_breakpoints_bug :
    from_entities (("0123456789").data)
        [⟨"italic", 5, 5⟩, ⟨"bold", 0, 5⟩] =
      [{ text := ("01234").data, bold := true },
       { text := ("56789").data, italic := true },
       { text := [] },
       { text := ("0123456789").data, bold := true }] := by
  rfl

/-- Claim C7 (counterexample): an exception raised by the command body that
is not a `BadUsage` can still propagate out of `on_receive` — `SystemExit`
derives only from `BaseException`, so the `except Exception` clause does not
contain it. -/
theorem dispatch_base_exception_propagates :
    dispatchBody false (.raised (.baseOnly ("SystemExit").data)) =
      .propagated (.baseOnly ("SystemExit").data) := by
  rfl

/-- Claim C7 (amended): for every raised exception in the `Exception`
hierarchy other than `BadUsage`, the dispatch call site contains it: the
summary note is sent exactly when `return-errors` is set, otherwise the
failure is only logged, and it never propagates; `BadUsage` yields help
text. -/
theorem dispatch_contains_exception_subclasses :
    ∀ (returnErrors : Bool) (cls msg : List Char),
      (dispatchBody returnErrors (.raised (.exc cls msg)) = .errorNote (warnText cls msg)
        ↔ returnErrors = true) ∧
      (dispatchBody returnErrors (.raised (.exc cls msg)) = .loggedOnly
        ↔ returnErrors = false) ∧
      (∀ e, dispatchBody returnErrors (.raised (.exc cls msg)) ≠ .propagated e) ∧
      dispatchBody returnErrors (.raised .badUsage) = .helpText := by
  intro returnErrors cls msg
  cases returnErrors <;> simp [dispatchBody]

/-- Claim C5: `commands(channel, user)` is pure and deterministic — the
state-threaded embedding leaves the world (config and hook states) unchanged,
a second call on the resulting world returns the identical mapping, and the
name-keyed mapping does not depend on the iteration order of the Python set
of occurrences: any permutation of the occurrence list (under distinct
names, the non-raising case) builds a dict with exactly the same entries. -/
theorem commands_pure_deterministic :
    (∀ (w : World) (channel : Channel) (user : User),
      (commandsRun w channel user).2 = w ∧
      (commandsRun ((commandsRun w channel user).2) channel user).1 =
        (commandsRun w channel user).1) ∧
    (∀ (occ occ' : List BoundCommand), occ.Perm occ' →
      (occ.map (fun bc => bc.cmd.name)).Nodup →
      ∀ p, p ∈ nameDict occ ↔ p ∈ nameDict occ') := by
  constructor
  · intro w channel user
    exact ⟨rfl, rfl⟩
  · exact nameDict_perm_invariant

/-- Claim C5 witness: the order-invariance applied to a two-element
occurrence set listed in both orders. -/
theorem commands_pure_deterministic_witness :
    (("a", (⟨"h1", { name := "a" }⟩ : BoundCommand)) ∈
        nameDict [⟨"h1", { name := "a" }⟩, ⟨"h2", { name := "b" }⟩] ↔
      ("a", (⟨"h1", { name := "a" }⟩ : BoundCommand)) ∈
        nameDict [⟨"h2", { name := "b" }⟩, ⟨"h1", { name := "a" }⟩]) :=
  commands_pure_deterministic.2
    [⟨"h1", { name := "a" }⟩, ⟨"h2", { name := "b" }⟩]
    [⟨"h2", { name := "b" }⟩, ⟨"h1", { name := "a" }⟩]
    (List.Perm.swap _ _ _) (by decide) _

/-- The count of no-default parameters splits into the required non-variadic
ones plus the variadic ones, given that a variadic parameter never carries a
default (true of every Python signature). -/
theorem required_count_split (params : List Param)
    (h : ∀ p ∈ params, p.variadic = true → p.hasDefault = false) :
    (params.filter (fun p => !p.hasDefault)).length =
      requiredNonVariadic params + (params.filter (fun p => p.variadic)).length := by
  induction params with
  | nil => rfl
  | cons p ps ih =>
    have hp := h p (List.mem_cons_self p ps)
    have hps : ∀ q ∈ ps, q.variadic = true → q.hasDefault = false :=
      fun q hq => h q (List.mem_cons_of_mem p hq)
    have ihs := ih hps
    rcases p with ⟨hd, va⟩
    cases va with
    | true =>
      have : hd = false := hp rfl
      subst this
      simp [requiredNonVariadic, List.filter] at ihs ⊢
      omega
    | false =>
      cases hd <;> simp [requiredNonVariadic, List.filter] at ihs ⊢ <;> omega

/-- Claim C3: `Command.valid` rejects exactly when there are fewer arguments
than required non-variadic parameters, or more arguments than declared
parameters while no variadic parameter exists; a command with parameters
`(a, b=default)` rejects 0 arguments, accepts 1 and 2, rejects 3. -/
theorem valid_arity_characterisation :
    (∀ (params : List Param) (nargs : Nat),
      (∀ p ∈ params, p.variadic = true → p.hasDefault = false) →
      (validArgs params nargs = false ↔
        nargs < requiredNonVariadic params ∨
          (nargs > params.length ∧ ∀ p ∈ params, p.variadic = false))) ∧
    validArgs [⟨false, false⟩, ⟨true, false⟩] 0 = false ∧
    validArgs [⟨false, false⟩, ⟨true, false⟩] 1 = true ∧
    validArgs [⟨false, false⟩, ⟨true, false⟩] 2 = true ∧
    validArgs [⟨false, false⟩, ⟨true, false⟩] 3 = false := by
  refine ⟨?_, by decide, by decide, by decide, by decide⟩
  intro params nargs h
  have hsplit := required_count_split params h
  have hnov : ((params.filter (fun p => p.variadic)).length = 0 ↔
      ∀ p ∈ params, p.variadic = false) := by
    rw [List.length_eq_zero, List.filter_eq_nil_iff]
    simp
  unfold validArgs
  dsimp only
  split_ifs with h1 h2
  · simp only [true_iff]
    left
    omega
  · simp only [true_iff]
    right
    exact ⟨h2.1, hnov.mp h2.2⟩
  · simp only [false_iff]
    push_neg
    constructor
    · omega
    · intro hlen
      by_contra hall
      exact h2 ⟨hlen, hnov.mpr (by simpa using hall)⟩

/-- Claim C3 witness. -/
theorem valid_arity_characterisation_witness :
    validArgs [⟨false, false⟩, ⟨false, true⟩] 0 = false ↔
      0 < requiredNonVariadic [⟨false, false⟩, ⟨false, true⟩] ∨
        (0 > 2 ∧ ∀ p ∈ ([⟨false, false⟩, ⟨false, true⟩] : List Param), p.variadic = false) :=
  valid_arity_characterisation.1 [⟨false, false⟩, ⟨false, true⟩] 0 (by decide)

/-- Claim C4: the dispatcher's marker matching is case-insensitive in the
message text (it depends only on the lowercased text); a message whose
lowercased text starts with no configured marker triggers nothing; and on
the first matching marker, the remainder after stripping it is split into a
lowercased command-name token (the maximal whitespace-free run after leading
whitespace) and an optional trailing argument string (what follows the
separator run, absent when nothing follows). -/
theorem dispatch_first_marker_and_split :
    (∀ (pfxs : List (List Char)) (a b : List Char),
      pyLower a = pyLower b → firstHit pfxs a = firstHit pfxs b) ∧
    (∀ (pfxs : List (List Char)) (plain : List Char),
      firstHit pfxs plain = .none → dispatchParse pfxs plain = .noMatch) ∧
    (∀ (pfxs : List (List Char)) (plain p : List Char),
      firstHit pfxs plain = some p →
      (plain.drop p.length).dropWhile pyIsSpace ≠ [] →
      dispatchParse pfxs plain =
        .cmd (pyLower (((plain.drop p.length).dropWhile pyIsSpace).takeWhile
            (fun c => !pyIsSpace c)))
          (if ((((plain.drop p.length).dropWhile pyIsSpace).dropWhile
                (fun c => !pyIsSpace c)).dropWhile pyIsSpace) = [] then Option.none
           else some ((((plain.drop p.length).dropWhile pyIsSpace).dropWhile
                (fun c => !pyIsSpace c)).dropWhile pyIsSpace))) := by
  refine ⟨?_, ?_, ?_⟩
  · intro pfxs a b h
    unfold firstHit
    rw [h]
  · intro pfxs plain
    induction pfxs with
    | nil => intro _; rfl
    | cons q rest ih =>
      intro h
      unfold firstHit at h
      rw [List.find?_cons] at h
      unfold dispatchParse
      cases hq : q.isPrefixOf (pyLower plain) with
      | true => rw [hq] at h; cases h
      | false =>
        rw [hq] at h
        simp only [hq, Bool.false_eq_true, if_false]
        exact ih h
  · intro pfxs plain p
    induction pfxs with
    | nil => intro h; cases h
    | cons q rest ih =>
      intro h hrem
      unfold firstHit at h
      rw [List.find?_cons] at h
      unfold dispatchParse
      cases hq : q.isPrefixOf (pyLower plain) with
      | true =>
        rw [hq] at h
        cases h
        simp only [hq, if_true]
        unfold splitMax1
        rw [if_neg hrem]
        set rem := (plain.drop p.length).dropWhile pyIsSpace with hremdef
        by_cases h2 : ((rem.dropWhile (fun c => !pyIsSpace c)).dropWhile pyIsSpace) = []
        · rw [if_pos h2, if_pos h2]
        · rw [if_neg h2, if_neg h2]
      | false =>
        rw [hq] at h
        simp only [hq, Bool.false_eq_true, if_false]
        exact ih h hrem

/-- Claim C4 witness: instantiated on marker `!` and the message
`!Echo  Hi there`. -/
theorem dispatch_first_marker_and_split_witness :
    dispatchParse [("!").data] (("!Echo  Hi there").data) =
      .cmd (pyLower (((("!Echo  Hi there").data.drop ("!").data.length).dropWhile
          pyIsSpace).takeWhile (fun c => !pyIsSpace c)))
        (if ((((("!Echo  Hi there").data.drop ("!").data.length).dropWhile
              pyIsSpace).dropWhile (fun c => !pyIsSpace c)).dropWhile pyIsSpace) = []
          then Option.none
         else some ((((("!Echo  Hi there").data.drop ("!").data.length).dropWhile
              pyIsSpace).dropWhile (fun c => !pyIsSpace c)).dropWhile pyIsSpace)) :=
  dispatch_first_marker_and_split.2.2 [("!").data] (("!Echo  Hi there").data)
    (("!").data) (by rfl) (by decide)

/-! ### Round-trip infrastructure -/

/-- Reading an index as a cons of the element there. -/
theorem drop_eq_cons_of_get? (s : List Char) (i : Nat) (c : Char)
    (h : s[i]? = some c) : s.drop i = c :: s.drop (i + 1) := by
  induction s generalizing i with
  | nil => simp at h
  | cons a rest ih =>
    cases i with
    | zero =>
      simp only [List.getElem?_cons_zero, Option.some.injEq] at h
      subst h
      simp
    | succ j =>
      simp only [List.getElem?_cons_succ] at h
      simpa using ih j h

/-- A tag starting with a character the position does not hold cannot occur
there. -/
theorem tagAt_cons_false (s : List Char) (i : Nat) (t0 : Char) (ts : List Char)
    (h : ∀ c, s[i]? = some c → c ≠ t0) : tagAt s i (t0 :: ts) = false := by
  unfold tagAt
  cases hg : s[i]? with
  | none =>
    have hlen : s.length ≤ i := List.getElem?_eq_none_iff.mp hg
    rw [List.drop_eq_nil_of_le hlen]
    simp [List.isPrefixOf]
  | some c =>
    rw [drop_eq_cons_of_get? s i c hg]
    have hne : (t0 == c) = false := beq_eq_false_iff_ne.mpr (fun he => (h c hg) he.symm)
    simp [List.isPrefixOf, hne]

/-- A single-character tag at the boundary of an append. -/
theorem tagAt_single_true (u rest : List Char) (t : Char) :
    tagAt (u ++ t :: rest) u.length [t] = true := by
  unfold tagAt
  rw [List.drop_left]
  simp [List.isPrefixOf]

/-- No format match can start at a position holding a non-tag character. -/
theorem tryMatchAt_none_of_not_tag (s : List Char) (i : Nat)
    (h : ∀ c, s[i]? = some c → tagChar c = false) : tryMatchAt s i = none := by
  have hbt : ∀ c, s[i]? = some c → c ≠ btick := by
    intro c hc he
    have hf := h c hc
    rw [he] at hf
    simp [tagChar] at hf
  have hpre : tagAt s i preTag = false := tagAt_cons_false s i btick _ hbt
  unfold tryMatchAt
  cases hg : s[i]? with
  | none => simp [tryTag, hpre, hg]
  | some c => simp [tryTag, hpre, hg, h c hg]

/-- Skipping matchless start positions. -/
theorem searchFromAux_skip (s : List Char) (k : Nat) :
    ∀ (fuel i : Nat), (∀ j, i ≤ j → j < i + k → tryMatchAt s j = none) →
      searchFromAux s (k + fuel) i = searchFromAux s fuel (i + k) := by
  induction k with
  | zero =>
    intro fuel i _
    simp
  | succ n ih =>
    intro fuel i h
    have h0 : tryMatchAt s i = none := h i (Nat.le_refl i) (by omega)
    have harr : n + 1 + fuel = (n + fuel) + 1 := by omega
    rw [harr]
    rw [show searchFromAux s ((n + fuel) + 1) i = searchFromAux s (n + fuel) (i + 1) from by
      simp [searchFromAux, h0]]
    rw [ih fuel (i + 1) (fun j hj1 hj2 => h j (by omega) (by omega))]
    have : i + 1 + n = i + (n + 1) := by omega
    rw [this]

/-- A position holding a character other than the tag cannot close it. -/
theorem closerOk_false_of_ne (s : List Char) (t : Char) (p : Nat)
    (h : ∀ c, s[p]? = some c → c ≠ t) : closerOk s [t] p = false := by
  unfold closerOk
  rw [tagAt_cons_false s p t [] h]
  simp

/-- The lazy content scan reaches the first valid closer, skipping content
characters that are neither the tag nor a newline. -/
theorem lazyScan_reaches (s : List Char) (t : Char) (k : Nat) :
    ∀ (fuel p : Nat),
      (∀ j, p ≤ j → j < p + k → ∃ c, s[j]? = some c ∧ c ≠ t ∧ c ≠ '\n') →
      closerOk s [t] (p + k) = true →
      lazyScan s [t] (k + (fuel + 1)) p = some (p + k) := by
  induction k with
  | zero =>
    intro fuel p _ hc
    rw [Nat.add_zero] at hc
    simp [lazyScan, hc]
  | succ n ih =>
    intro fuel p h hc
    obtain ⟨c, hg, hct, hcn⟩ := h p (Nat.le_refl p) (by omega)
    have hcf : closerOk s [t] p = false := by
      refine closerOk_false_of_ne s t p ?_
      intro c' hc'
      rw [hg] at hc'
      cases hc'
      exact hct
    have harr : n + 1 + (fuel + 1) = (n + (fuel + 1)) + 1 := by omega
    rw [harr]
    rw [show lazyScan s [t] ((n + (fuel + 1)) + 1) p = lazyScan s [t] (n + (fuel + 1)) (p + 1) from by
      simp [lazyScan, hcf, hg, hcn]]
    have hshift : p + 1 + n = p + (n + 1) := by omega
    rw [ih fuel (p + 1) (fun j hj1 hj2 => h j (by omega) (by omega)) (by rw [hshift]; exact hc)]
    rw [hshift]

/-- A text without tag characters has no format match. -/
theorem searchFromAux_none (s : List Char) (h : ∀ c ∈ s, tagChar c = false) :
    ∀ fuel i, searchFromAux s fuel i = none := by
  intro fuel
  induction fuel with
  | zero => intro i; rfl
  | succ n ih =>
    intro i
    have h0 : tryMatchAt s i = none :=
      tryMatchAt_none_of_not_tag s i (fun c hc => h c (List.getElem?_mem hc))
    simp [searchFromAux, h0, ih]

/-- A text without `<` has no link match at any position. -/
theorem findLinkAt_none (s : List Char) (i : Nat) (h : ∀ c ∈ s, c ≠ '<') :
    findLinkAt s i = none := by
  unfold findLinkAt
  rw [if_neg]
  intro hg
  exact h '<' (List.getElem?_mem hg) rfl

/-- A text without `<` yields no link matches. -/
theorem findLinks_nil (s : List Char) (h : ∀ c ∈ s, c ≠ '<') :
    ∀ fuel i, findLinks s fuel i = [] := by
  intro fuel
  induction fuel with
  | zero => intro i; rfl
  | succ n ih =>
    intro i
    simp [findLinks, findLinkAt_none s i h, ih]

/-- A substitution whose matcher never fires is the identity. -/
theorem reSubAux_id (m : List Char → Nat → Except PyErr (Option (Nat × List Char)))
    (s : List Char) (hm : ∀ j, m s j = .ok Option.none) :
    ∀ fuel i, s.length ≤ i + fuel → reSubAux m s fuel i = .ok (s.drop i) := by
  intro fuel
  induction fuel with
  | zero =>
    intro i h
    rw [Nat.add_zero] at h
    simp [reSubAux, List.drop_eq_nil_of_le h]
  | succ n ih =>
    intro i h
    cases hg : s[i]? with
    | none =>
      have hlen := List.getElem?_eq_none_iff.mp hg
      simp [reSubAux, hg, List.drop_eq_nil_of_le hlen]
    | some c =>
      have hrec := ih (i + 1) (by omega)
      rw [drop_eq_cons_of_get? s i c hg]
      simp [reSubAux, hg, hm i, Bind.bind, Except.bind, hrec]

/-- The user-mention matcher never fires on `<`-free text. -/
theorem userMention_none (ctx : SlackCtx) (s : List Char) (h : ∀ c ∈ s, c ≠ '<') :
    ∀ j, userMention ctx s j = .ok Option.none := by
  intro j
  unfold userMention
  rw [if_neg]
  rintro ⟨h1, -⟩
  exact h '<' (List.getElem?_mem h1) rfl

/-- The channel-mention matcher never fires on `<`-free text. -/
theorem channelMention_none (ctx : SlackCtx) (s : List Char) (h : ∀ c ∈ s, c ≠ '<') :
    ∀ j, channelMention ctx s j = .ok Option.none := by
  intro j
  unfold channelMention
  rw [if_neg]
  rintro ⟨h1, -⟩
  exact h '<' (List.getElem?_mem h1) rfl

/-- The link matcher never fires on `<`-free text. -/
theorem linkReplace_none (s : List Char) (h : ∀ c ∈ s, c ≠ '<') :
    ∀ j, linkReplace s j = .ok Option.none := by
  intro j
  unfold linkReplace
  rw [if_neg]
  intro h1
  exact h '<' (List.getElem?_mem h1) rfl

/-- Unpacking of `delimFree`. -/
theorem delimFree_spec (c : Char) (h : delimFree c = true) :
    tagChar c = false ∧ c ≠ '\\' ∧ c ≠ '<' ∧ c ≠ '\n' ∧ c ≠ '\x01' := by
  unfold delimFree at h
  simp only [Bool.and_eq_true, Bool.not_eq_true', decide_eq_false_iff_not] at h
  exact ⟨h.1.1.1.1.1, h.1.1.1.1.2, h.1.1.1.2, h.1.1.2, h.1.2⟩

/-- A `delimFree` character is in particular not the colon of the
`:alias:` emoji syntax. -/
theorem delimFree_colon (c : Char) (h : delimFree c = true) : c ≠ ':' := by
  unfold delimFree at h
  simp only [Bool.and_eq_true, Bool.not_eq_true', decide_eq_false_iff_not] at h
  exact h.2

/-- On a safe decomposition `p1 ++ t :: f ++ t :: p2` the format search finds
exactly the span of `f` with its two tags. -/
theorem findFormatMatch_safe (t : Char) (p1 f p2 : List Char)
    (htag : tagChar t = true) (hbt : t ≠ btick)
    (hp1 : ∀ c ∈ p1, delimFree c = true)
    (hf : ∀ c ∈ f, delimFree c = true)
    (hfne : f ≠ [])
    (hfh : ∀ c, f.head? = some c → pyIsSpace c = false)
    (hfl : ∀ c, f.getLast? = some c → pyIsSpace c = false)
    (hp1l : ∀ c, p1.getLast? = some c → outsideChar c = false)
    (hp2h : ∀ c, p2.head? = some c → outsideChar c = false) :
    findFormatMatch (p1 ++ t :: (f ++ t :: p2)) =
      some ⟨p1.length, [t], p1.length + f.length + 2⟩ := by
  have hflpos : 0 < f.length := List.length_pos.mpr hfne
  have hget_p1 : ∀ j, j < p1.length → (p1 ++ t :: (f ++ t :: p2))[j]? = p1[j]? :=
    fun j hj => List.getElem?_append_left hj
  have hget_t1 : (p1 ++ t :: (f ++ t :: p2))[p1.length]? = some t := by
    rw [List.getElem?_append_right (Nat.le_refl _)]
    simp
  have hget_mid : ∀ n, (p1 ++ t :: (f ++ t :: p2))[p1.length + 1 + n]? =
      (f ++ t :: p2)[n]? := by
    intro n
    rw [List.getElem?_append_right (by omega)]
    have h1 : p1.length + 1 + n - p1.length = n + 1 := by omega
    rw [h1]
    simp
  have hget_f : ∀ n, n < f.length → (p1 ++ t :: (f ++ t :: p2))[p1.length + 1 + n]? = f[n]? := by
    intro n hn
    rw [hget_mid n]
    exact List.getElem?_append_left hn
  have hmem_f : ∀ n, n < f.length → ∃ c, f[n]? = some c ∧ delimFree c = true := by
    intro n hn
    cases hc : f[n]? with
    | none => exact absurd (List.getElem?_eq_none_iff.mp hc) (by omega)
    | some c => exact ⟨c, rfl, hf c (List.getElem?_mem hc)⟩
  have hskip : ∀ j, j < p1.length → tryMatchAt (p1 ++ t :: (f ++ t :: p2)) j = none := by
    intro j hj
    refine tryMatchAt_none_of_not_tag _ j ?_
    intro c hc
    rw [hget_p1 j hj] at hc
    exact (delimFree_spec c (hp1 c (List.getElem?_mem hc))).1
  have hlb : lookbehindOpenOk (p1 ++ t :: (f ++ t :: p2)) p1.length = true := by
    unfold lookbehindOpenOk
    by_cases hp1e : p1.length = 0
    · rw [if_pos hp1e]
    · rw [if_neg hp1e]
      have hlt : p1.length - 1 < p1.length := by omega
      rw [hget_p1 _ hlt]
      cases hgl : p1.getLast? with
      | none =>
        have := List.getLast?_eq_none_iff.mp hgl
        rw [this] at hp1e
        simp at hp1e
      | some c =>
        have hsome : p1[p1.length - 1]? = some c := by
          rw [← List.getLast?_eq_getElem?]
          exact hgl
        rw [hsome]
        have hmem : c ∈ p1 := List.getElem?_mem hsome
        have h1 := hp1l c hgl
        have h2 := (delimFree_spec c (hp1 c hmem)).2.1
        simp [h1, h2]
  have hpre_none : tagAt (p1 ++ t :: (f ++ t :: p2)) p1.length preTag = false := by
    refine tagAt_cons_false _ _ _ _ ?_
    intro c hc
    rw [hget_t1] at hc
    cases hc
    exact hbt
  have htagAt : tagAt (p1 ++ t :: (f ++ t :: p2)) p1.length [t] = true :=
    tagAt_single_true p1 _ t
  obtain ⟨c0, f', hf'⟩ : ∃ c0 f', f = c0 :: f' := by
    cases f with
    | nil => exact absurd rfl hfne
    | cons a l => exact ⟨a, l, rfl⟩
  have hc0head : f.head? = some c0 := by rw [hf']; rfl
  have hc0mem : c0 ∈ f := by rw [hf']; exact List.mem_cons_self _ _
  have hget_c0 : (p1 ++ t :: (f ++ t :: p2))[p1.length + 1]? = some c0 := by
    have h0 := hget_f 0 hflpos
    rw [Nat.add_zero] at h0
    rw [h0, ← List.head?_eq_getElem?]
    exact hc0head
  have hinside_c0 : insideBad c0 = false := by
    unfold insideBad
    have h1 := hfh c0 hc0head
    have h2 := (delimFree_spec c0 (hf c0 hc0mem)).2.2.2.2
    simp [h1, h2]
  have hclose : closerOk (p1 ++ t :: (f ++ t :: p2)) [t] (p1.length + 1 + f.length) = true := by
    have htagc : tagAt (p1 ++ t :: (f ++ t :: p2)) (p1.length + 1 + f.length) [t] = true := by
      have hassoc : p1 ++ t :: (f ++ t :: p2) = (p1 ++ t :: f) ++ (t :: p2) := by simp
      have hlen2 : (p1 ++ t :: f).length = p1.length + 1 + f.length := by
        simp
        omega
      rw [hassoc, ← hlen2]
      exact tagAt_single_true _ _ _
    cases hgl : f.getLast? with
    | none =>
      exact absurd (List.getLast?_eq_none_iff.mp hgl) hfne
    | some cl =>
      have hglel : f[f.length - 1]? = some cl := by
        rw [← List.getLast?_eq_getElem?]
        exact hgl
      have hgetcl : (p1 ++ t :: (f ++ t :: p2))[p1.length + 1 + f.length - 1]? = some cl := by
        have h1 : p1.length + 1 + f.length - 1 = p1.length + 1 + (f.length - 1) := by omega
        rw [h1, hget_f (f.length - 1) (by omega)]
        exact hglel
      have hclmem : cl ∈ f := List.getElem?_mem hglel
      have hcl1 := hfl cl hgl
      have hcl2 := (delimFree_spec cl (hf cl hclmem)).2.1
      have hcl3 := (delimFree_spec cl (hf cl hclmem)).2.2.2.2
      have hafter : (p1 ++ t :: (f ++ t :: p2))[p1.length + 1 + f.length + 1]? = p2[0]? := by
        have h1 : p1.length + 1 + f.length + 1 = p1.length + 1 + (f.length + 1) := by omega
        rw [h1, hget_mid]
        rw [List.getElem?_append_right (by omega)]
        have h2 : f.length + 1 - f.length = 1 := by omega
        rw [h2]
        simp
      unfold closerOk
      rw [htagc]
      rw [if_neg (by omega : ¬(p1.length + 1 + f.length = 0))]
      rw [hgetcl]
      have hlength1 : p1.length + 1 + f.length + ([t] : List Char).length =
          p1.length + 1 + f.length + 1 := by simp
      rw [hlength1, hafter]
      cases hh : p2[0]? with
      | none =>
        simp [insideBad, hcl1, hcl2, hcl3]
      | some ch =>
        have hchh : p2.head? = some ch := by rw [List.head?_eq_getElem?]; exact hh
        have := hp2h ch hchh
        simp [insideBad, hcl1, hcl2, hcl3, this]
  have hRlen : (p1 ++ t :: (f ++ t :: p2)).length = p1.length + f.length + p2.length + 2 := by
    simp
    omega
  have hlazy : lazyScan (p1 ++ t :: (f ++ t :: p2)) [t]
      ((p1 ++ t :: (f ++ t :: p2)).length + 1) (p1.length + 2) =
      some (p1.length + 1 + f.length) := by
    obtain ⟨fu, hfu⟩ : ∃ fu, (p1 ++ t :: (f ++ t :: p2)).length + 1 = (f.length - 1) + (fu + 1) :=
      ⟨(p1 ++ t :: (f ++ t :: p2)).length - f.length + 1, by rw [hRlen]; omega⟩
    rw [hfu]
    rw [show p1.length + 1 + f.length = p1.length + 2 + (f.length - 1) from by omega]
    apply lazyScan_reaches
    · intro j hj1 hj2
      obtain ⟨n, hn1, hn2, hjn⟩ : ∃ n, 1 ≤ n ∧ n < f.length ∧ j = p1.length + 1 + n :=
        ⟨j - p1.length - 1, by omega, by omega, by omega⟩
      obtain ⟨c, hc, hcd⟩ := hmem_f n hn2
      refine ⟨c, ?_, ?_, ?_⟩
      · rw [hjn, hget_f n hn2]
        exact hc
      · intro he
        have h1 := (delimFree_spec c hcd).1
        rw [he, htag] at h1
        cases h1
      · exact (delimFree_spec c hcd).2.2.2.1
    · rw [show p1.length + 2 + (f.length - 1) = p1.length + 1 + f.length from by omega]
      exact hclose
  have htm : tryMatchAt (p1 ++ t :: (f ++ t :: p2)) p1.length =
      some ⟨p1.length, [t], p1.length + f.length + 2⟩ := by
    have hpreTag : tryTag (p1 ++ t :: (f ++ t :: p2)) p1.length preTag = none := by
      unfold tryTag
      rw [hpre_none]
      simp
    have hsingle : tryTag (p1 ++ t :: (f ++ t :: p2)) p1.length [t] =
        some ⟨p1.length, [t], p1.length + f.length + 2⟩ := by
      unfold tryTag
      rw [htagAt]
      have hlen1 : p1.length + ([t] : List Char).length = p1.length + 1 := by simp
      rw [hlen1, hget_c0]
      have hlen2 : p1.length + 1 + 1 = p1.length + 2 := by omega
      simp only [if_true, hinside_c0, Bool.false_eq_true, if_false, hlen2, hlazy]
      have : p1.length + 1 + f.length + ([t] : List Char).length = p1.length + f.length + 2 := by
        simp
        omega
      simp [this]
      omega
    unfold tryMatchAt
    rw [hlb]
    rw [hpreTag, hget_t1]
    simp [htag, hsingle]
  unfold findFormatMatch
  obtain ⟨fu2, hfu2⟩ : ∃ fu2, (p1 ++ t :: (f ++ t :: p2)).length = p1.length + (fu2 + 1) :=
    ⟨f.length + p2.length + 1, by rw [hRlen]; omega⟩
  rw [hfu2]
  rw [searchFromAux_skip _ p1.length (fu2 + 1) 0 (fun j hj1 hj2 => hskip j (by omega))]
  rw [Nat.zero_add]
  simp [searchFromAux, htm]

/-- On a safe decomposition the strip loop removes exactly the two tags and
records exactly the span of `f`. -/
theorem stripLoop_safe (t : Char) (fld : Field) (p1 f p2 : List Char)
    (htag : tagChar t = true) (hbt : t ≠ btick)
    (hfieldOf : slackTagField [t] = fld)
    (hp1 : ∀ c ∈ p1, delimFree c = true)
    (hf : ∀ c ∈ f, delimFree c = true)
    (hp2 : ∀ c ∈ p2, delimFree c = true)
    (hfne : f ≠ [])
    (hfh : ∀ c, f.head? = some c → pyIsSpace c = false)
    (hfl : ∀ c, f.getLast? = some c → pyIsSpace c = false)
    (hp1l : ∀ c, p1.getLast? = some c → outsideChar c = false)
    (hp2h : ∀ c, p2.head? = some c → outsideChar c = false) :
    stripLoop (p1 ++ t :: (f ++ t :: p2)).length (p1 ++ t :: (f ++ t :: p2)) [] =
      (p1 ++ (f ++ p2),
        [(p1.length, [(fld, AttrVal.flag true)]),
         (p1.length + f.length, [(fld, AttrVal.flag false)])]) := by
  have hflpos : 0 < f.length := List.length_pos.mpr hfne
  have hmatch := findFormatMatch_safe t p1 f p2 htag hbt hp1 hf hfne hfh hfl hp1l hp2h
  have hRlen : (p1 ++ t :: (f ++ t :: p2)).length = p1.length + f.length + p2.length + 2 := by
    simp
    omega
  have hassoc : p1 ++ t :: (f ++ t :: p2) = (p1 ++ t :: f) ++ (t :: p2) := by simp
  have htake0 : (p1 ++ t :: (f ++ t :: p2)).take p1.length = p1 :=
    List.take_left p1 _
  have hinner : pyslice (p1 ++ t :: (f ++ t :: p2)) (p1.length + 1)
      (p1.length + f.length + 2 - 1) = f := by
    unfold pyslice
    have h1 : p1.length + f.length + 2 - 1 = (p1 ++ t :: f).length := by
      simp
      omega
    rw [h1, hassoc, List.take_left]
    have h2 : p1.length + 1 = p1.length + 1 := rfl
    have h3 : (p1 ++ t :: f).drop (p1.length + 1) = (t :: f).drop 1 := List.drop_append 1
    rw [h3]
    rfl
  have hdrop : (p1 ++ t :: (f ++ t :: p2)).drop (p1.length + f.length + 2) = p2 := by
    have h1 : p1.length + f.length + 2 = p1.length + (f.length + 2) := by omega
    rw [h1, List.drop_append (f.length + 2)]
    rw [List.drop_succ_cons]
    have h2 : f.length + 1 = f.length + 1 := rfl
    have h3 : (f ++ t :: p2).drop (f.length + 1) = (t :: p2).drop 1 := List.drop_append 1
    rw [h3]
    rfl
  have hchanges : recordChange (recordChange [] p1.length fld (AttrVal.flag true))
      (p1.length + f.length) fld (AttrVal.flag false) =
      [(p1.length, [(fld, AttrVal.flag true)]),
       (p1.length + f.length, [(fld, AttrVal.flag false)])] := by
    have h0 : recordChange [] p1.length fld (AttrVal.flag true) =
        [(p1.length, [(fld, AttrVal.flag true)])] := rfl
    rw [h0]
    unfold recordChange
    rw [if_neg (by omega : ¬(p1.length + f.length = p1.length))]
    rfl
  have hnotags2 : ∀ c ∈ p1 ++ (f ++ p2), tagChar c = false := by
    intro c hc
    rcases List.mem_append.mp hc with h | h
    · exact (delimFree_spec c (hp1 c h)).1
    rcases List.mem_append.mp h with h | h
    · exact (delimFree_spec c (hf c h)).1
    · exact (delimFree_spec c (hp2 c h)).1
  have hnomatch2 : findFormatMatch (p1 ++ (f ++ p2)) = none :=
    searchFromAux_none _ hnotags2 _ 0
  obtain ⟨k, hk⟩ : ∃ k, (p1 ++ t :: (f ++ t :: p2)).length = (k + 1) + 1 :=
    ⟨p1.length + f.length + p2.length, by omega⟩
  rw [hk]
  rw [show stripLoop ((k + 1) + 1) (p1 ++ t :: (f ++ t :: p2)) [] =
      stripLoop (k + 1)
        ((p1 ++ t :: (f ++ t :: p2)).take p1.length ++
          pyslice (p1 ++ t :: (f ++ t :: p2)) (p1.length + ([t] : List Char).length)
            (p1.length + f.length + 2 - ([t] : List Char).length) ++
          (p1 ++ t :: (f ++ t :: p2)).drop (p1.length + f.length + 2))
        (recordChange
          (recordChange [] p1.length (slackTagField [t]) (AttrVal.flag true))
          (p1.length + f.length + 2 - 2 * ([t] : List Char).length) (slackTagField [t])
          (AttrVal.flag false)) from by
    simp only [stripLoop, hmatch]]
  have hlen1 : ([t] : List Char).length = 1 := rfl
  rw [hlen1, htake0, hfieldOf]
  rw [show p1.length + 1 = p1.length + 1 from rfl]
  rw [hinner, hdrop]
  rw [show p1.length + f.length + 2 - 2 * 1 = p1.length + f.length from by omega]
  rw [hchanges]
  have hfinal : p1 ++ f ++ p2 = p1 ++ (f ++ p2) := by simp
  rw [hfinal]
  rw [show stripLoop (k + 1) (p1 ++ (f ++ p2))
        [(p1.length, [(fld, AttrVal.flag true)]),
         (p1.length + f.length, [(fld, AttrVal.flag false)])] =
      (p1 ++ (f ++ p2),
        [(p1.length, [(fld, AttrVal.flag true)]),
         (p1.length + f.length, [(fld, AttrVal.flag false)])]) from by
    simp only [stripLoop, hnomatch2]]

/-- On a safe decomposition the whole parse yields the plain, formatted and
plain segments. -/
theorem from_mrkdwn_safe (ctx : SlackCtx) (t : Char) (fld : Field) (p1 f p2 : List Char)
    (hemo : ∀ s : List Char, (∀ c ∈ s, c ≠ ':') → ctx.emojize s = s)
    (htag : tagChar t = true) (hbt : t ≠ btick)
    (hfieldOf : slackTagField [t] = fld)
    (hp1 : ∀ c ∈ p1, delimFree c = true)
    (hf : ∀ c ∈ f, delimFree c = true)
    (hp2 : ∀ c ∈ p2, delimFree c = true)
    (hfne : f ≠ [])
    (hfh : ∀ c, f.head? = some c → pyIsSpace c = false)
    (hfl : ∀ c, f.getLast? = some c → pyIsSpace c = false)
    (hp1l : ∀ c, p1.getLast? = some c → outsideChar c = false)
    (hp2h : ∀ c, p2.head? = some c → outsideChar c = false) :
    from_mrkdwn ctx (p1 ++ t :: (f ++ t :: p2)) =
      .ok ((if p1 = [] then [] else [{ text := p1 }]) ++
        Segment.applyChange { text := f } (fld, .flag true) ::
        (if p2 = [] then [] else [Segment.applyChange { text := p2 } (fld, .flag false)])) := by
  have hflpos : 0 < f.length := List.length_pos.mpr hfne
  have hstrip := stripLoop_safe t fld p1 f p2 htag hbt hfieldOf hp1 hf hp2 hfne hfh hfl hp1l hp2h
  have hemo1 : ctx.emojize p1 = p1 := hemo p1 (fun c hc => delimFree_colon c (hp1 c hc))
  have hemof : ctx.emojize f = f := hemo f (fun c hc => delimFree_colon c (hf c hc))
  have hemo2 : ctx.emojize p2 = p2 := hemo p2 (fun c hc => delimFree_colon c (hp2 c hc))
  have hnolt : ∀ c ∈ p1 ++ (f ++ p2), c ≠ '<' := by
    intro c hc
    rcases List.mem_append.mp hc with h | h
    · exact (delimFree_spec c (hp1 c h)).2.2.1
    rcases List.mem_append.mp h with h | h
    · exact (delimFree_spec c (hf c h)).2.2.1
    · exact (delimFree_spec c (hp2 c h)).2.2.1
  have hnolt1 : ∀ c ∈ p1, c ≠ '<' := fun c hc => hnolt c (by simp [hc])
  have hnoltf : ∀ c ∈ f, c ≠ '<' := fun c hc => hnolt c (by simp [hc])
  have hnolt2 : ∀ c ∈ p2, c ≠ '<' := fun c hc => hnolt c (by simp [hc])
  have hlinks : findLinks (p1 ++ (f ++ p2)) ((p1 ++ (f ++ p2)).length + 1) 0 = [] :=
    findLinks_nil _ hnolt _ 0
  have hid : ∀ (mm : List Char → Nat → Except PyErr (Option (Nat × List Char)))
      (part : List Char), (∀ j, mm part j = Except.ok Option.none) →
      reSubAux mm part (part.length + 1) 0 = .ok part := by
    intro mm part hmm0
    have h := reSubAux_id mm part hmm0 (part.length + 1) 0 (by omega)
    rw [List.drop_zero] at h
    exact h
  have hpart1 : pyslice (p1 ++ (f ++ p2)) 0 p1.length = p1 := by
    unfold pyslice
    rw [List.drop_zero, List.take_left]
  have hpartf : pyslice (p1 ++ (f ++ p2)) p1.length (p1.length + f.length) = f := by
    unfold pyslice
    rw [List.take_append f.length, List.take_left, List.drop_left]
  have hpart2 : pyslice (p1 ++ (f ++ p2)) (p1.length + f.length) (p1 ++ (f ++ p2)).length = p2 := by
    unfold pyslice
    rw [List.take_length]
    have h1 : p1.length + f.length = p1.length + f.length := rfl
    rw [List.drop_append f.length, List.drop_left]
  have hchAtL : changesAt
      [(p1.length, [(fld, AttrVal.flag true)]),
       (p1.length + f.length, [(fld, AttrVal.flag false)])] p1.length =
      [(fld, AttrVal.flag true)] := by
    simp [changesAt, List.find?]
  have hchAtLF : changesAt
      [(p1.length, [(fld, AttrVal.flag true)]),
       (p1.length + f.length, [(fld, AttrVal.flag false)])] (p1.length + f.length) =
      [(fld, AttrVal.flag false)] := by
    have hne : (p1.length = p1.length + f.length) = False := eq_false (by omega)
    simp [changesAt, List.find?, hne]
  have hstep3 : segLoop ctx (p1 ++ (f ++ p2))
      [(p1.length, [(fld, AttrVal.flag true)]),
       (p1.length + f.length, [(fld, AttrVal.flag false)])]
      [(p1.length + f.length, (p1 ++ (f ++ p2)).length)] =
      .ok (if p2 = [] then []
        else [Segment.applyChange { text := p2 } (fld, .flag false)]) := by
    have hTlen : (p1 ++ (f ++ p2)).length = p1.length + f.length + p2.length := by
      simp
      omega
    by_cases hp2e : p2 = []
    · rw [if_pos hp2e]
      have hc : p1.length + f.length = (p1 ++ (f ++ p2)).length := by
        rw [hTlen, hp2e]
        simp
      unfold segLoop
      rw [if_pos hc]
      rfl
    · rw [if_neg hp2e]
      have hc : ¬(p1.length + f.length = (p1 ++ (f ++ p2)).length) := by
        have := List.length_pos.mpr hp2e
        rw [hTlen]
        omega
      unfold segLoop
      rw [if_neg hc]
      simp only [hpart2, hemo2, Bind.bind, Except.bind,
        hid (userMention ctx) p2 (userMention_none ctx p2 hnolt2),
        hid (channelMention ctx) p2 (channelMention_none ctx p2 hnolt2),
        hid linkReplace p2 (linkReplace_none p2 hnolt2), hchAtLF]
      rw [show segLoop ctx (p1 ++ (f ++ p2))
          [(p1.length, [(fld, AttrVal.flag true)]),
           (p1.length + f.length, [(fld, AttrVal.flag false)])] [] = .ok [] from rfl]
      simp [Segment.applyChanges]
  have hstep2 : segLoop ctx (p1 ++ (f ++ p2))
      [(p1.length, [(fld, AttrVal.flag true)]),
       (p1.length + f.length, [(fld, AttrVal.flag false)])]
      [(p1.length, p1.length + f.length),
       (p1.length + f.length, (p1 ++ (f ++ p2)).length)] =
      .ok (Segment.applyChange { text := f } (fld, .flag true) ::
        (if p2 = [] then []
         else [Segment.applyChange { text := p2 } (fld, .flag false)])) := by
    have hc : ¬(p1.length = p1.length + f.length) := by omega
    unfold segLoop
    rw [if_neg hc]
    simp only [hpartf, hemof, Bind.bind, Except.bind,
      hid (userMention ctx) f (userMention_none ctx f hnoltf),
      hid (channelMention ctx) f (channelMention_none ctx f hnoltf),
      hid linkReplace f (linkReplace_none f hnoltf), hchAtL, hstep3]
    simp [Segment.applyChanges]
  have hseg : segLoop ctx (p1 ++ (f ++ p2))
      [(p1.length, [(fld, AttrVal.flag true)]),
       (p1.length + f.length, [(fld, AttrVal.flag false)])]
      [(0, p1.length), (p1.length, p1.length + f.length),
       (p1.length + f.length, (p1 ++ (f ++ p2)).length)] =
      .ok ((if p1 = [] then [] else [{ text := p1 }]) ++
        Segment.applyChange { text := f } (fld, .flag true) ::
        (if p2 = [] then []
         else [Segment.applyChange { text := p2 } (fld, .flag false)])) := by
    by_cases hp1e : p1 = []
    · have hc : (0 : Nat) = p1.length := by rw [hp1e]; rfl
      unfold segLoop
      rw [if_pos hc, hstep2, if_pos hp1e]
      rfl
    · have hc : ¬((0 : Nat) = p1.length) := by
        have := List.length_pos.mpr hp1e
        omega
      have hch0 : changesAt
          [(p1.length, [(fld, AttrVal.flag true)]),
           (p1.length + f.length, [(fld, AttrVal.flag false)])] 0 = [] := by
        have hl1 : 0 < p1.length := List.length_pos.mpr hp1e
        have hne1 : (p1.length = 0) = False := eq_false (by omega)
        have hne2 : (p1.length + f.length = 0) = False := eq_false (by omega)
        simp [changesAt, List.find?, hne1, hne2]
      unfold segLoop
      rw [if_neg hc]
      simp only [hpart1, hemo1, Bind.bind, Except.bind,
        hid (userMention ctx) p1 (userMention_none ctx p1 hnolt1),
        hid (channelMention ctx) p1 (channelMention_none ctx p1 hnolt1),
        hid linkReplace p1 (linkReplace_none p1 hnolt1), hch0, hstep2]
      rw [if_neg hp1e]
      simp [Segment.applyChanges]
  simp only [from_mrkdwn]
  rw [hstrip]
  simp only [hlinks, List.foldl_nil, List.map_cons, List.map_nil]
  simp only [List.zip, List.zipWith, List.cons_append, List.nil_append]
  exact hseg

/-- On a safe decomposition the renderer emits the plain text around the two
tags. -/
theorem to_mrkdwn_safe (t : Char) (fld : Field) (p1 f p2 : List Char)
    (htf : (t, fld) ∈ ([('*', Field.bold), ('_', Field.italic), ('~', Field.strike)]
      : List (Char × Field)))
    (hfne : f ≠ []) :
    to_mrkdwn [{ text := p1 }, Segment.applyChange { text := f } (fld, .flag true),
      { text := p2 }] = p1 ++ t :: (f ++ t :: p2) := by
  simp only [List.mem_cons, List.not_mem_nil, or_false] at htf
  rcases htf with h | h | h <;>
  · injection h with h1 h2
    subst h1
    subst h2
    by_cases hp1e : p1 = [] <;> by_cases hp2e : p2 = [] <;>
      simp [to_mrkdwn, normalise, mergeRuns, mergeRunsGo, renderSeg, tagsList, tagFieldOf,
        fmtFlag, sameAttrs, Segment.applyChange, List.filter, hp1e, hp2e, hfne]

/-- The parsed segments normalise to the same result as the source
segments. -/
theorem normalise_parse_eq (t : Char) (fld : Field) (p1 f p2 : List Char)
    (htf : (t, fld) ∈ ([('*', Field.bold), ('_', Field.italic), ('~', Field.strike)]
      : List (Char × Field)))
    (hfne : f ≠ []) :
    normalise ((if p1 = [] then [] else [{ text := p1 }]) ++
      Segment.applyChange { text := f } (fld, .flag true) ::
      (if p2 = [] then [] else [Segment.applyChange { text := p2 } (fld, .flag false)])) =
    normalise [{ text := p1 }, Segment.applyChange { text := f } (fld, .flag true),
      { text := p2 }] := by
  simp only [List.mem_cons, List.not_mem_nil, or_false] at htf
  rcases htf with h | h | h <;>
  · injection h with h1 h2
    subst h1
    subst h2
    by_cases hp1e : p1 = [] <;> by_cases hp2e : p2 = [] <;>
      simp [normalise, mergeRuns, mergeRunsGo, sameAttrs, Segment.applyChange, List.filter,
        hp1e, hp2e, hfne]

/-- Claim C9: parsing `\*not bold\*` yields exactly one segment whose text
keeps the literal `*` characters and whose bold attribute is false; and in
general a delimiter preceded by the escape character never opens formatting
(the opening lookbehind rejects a preceding backslash) and never closes it
(the closing lookbehind likewise). -/
theorem escaped_delimiters_stay_literal :
    from_mrkdwn {} (("\\*not bold\\*").data) =
        .ok [{ text := ("\\*not bold\\*").data }] ∧
    '*' ∈ ("\\*not bold\\*").data ∧
    (∀ (s : List Char) (j : Nat) (m : FmtMatch),
      s[j]? = some '\\' → tryMatchAt s (j + 1) ≠ some m) ∧
    (∀ (s tag : List Char) (q : Nat),
      s[q]? = some '\\' → closerOk s tag (q + 1) = false) := by
  refine ⟨by rfl, by decide, ?_, ?_⟩
  · intro s j m h
    unfold tryMatchAt lookbehindOpenOk
    simp only [Nat.add_sub_cancel]
    rw [h]
    simp
  · intro s tag q h
    unfold closerOk
    simp only [Nat.add_sub_cancel]
    rw [h]
    simp [insideBad]

/-- Claim C9 witness: the general escape facts instantiated at `\*` inputs. -/
theorem escaped_delimiters_stay_literal_witness :
    (tryMatchAt ['\\', '*'] 1 ≠ some ⟨1, ['*'], 2⟩) ∧
    closerOk ['x', '\\', '*'] ['*'] 2 = false :=
  ⟨escaped_delimiters_stay_literal.2.2.1 ['\\', '*'] 0 ⟨1, ['*'], 2⟩ rfl,
   escaped_delimiters_stay_literal.2.2.2 ['x', '\\', '*'] ['*'] 1 rfl⟩

/-- Claim C8 (counterexample): a rich text whose attributes are trivially
non-overlapping and whose text contains no escaped delimiter — the single
plain segment `a *b* c` — does not round-trip: rendering emits the bare
delimiters, and parsing turns them into formatting, so the normalized parse
differs from the normalized original. -/
theorem mrkdwn_roundtrip_counterexample :
    (from_mrkdwn {} (to_mrkdwn [{ text := ("a *b* c").data }])).map normalise =
      .ok [{ text := ("a ").data }, { text := ("b").data, bold := true },
        { text := (" c").data }] ∧
    normalise [{ text := ("a *b* c").data }] = [{ text := ("a *b* c").data }] ∧
    ([{ text := ("a ").data }, { text := ("b").data, bold := true },
        { text := (" c").data }] ≠ [({ text := ("a *b* c").data } : Segment)]) := by
  refine ⟨by rfl, by rfl, by decide⟩

/-- Claim C8 (amended): within the delimiter-safe family — an optional plain
segment, one segment carrying exactly one of bold/italic/strike, and an
optional plain segment, where every text avoids the mrkdwn control
characters (`* _ ~ `` ` `` \ < newline U+0001`) and the colon of the
`:alias:` emoji syntax, the formatted text is non-empty with non-whitespace
first and last characters, the preceding plain text does not end with a
character of the guard class `[0-9a-z*_~]` and the following plain text
does not start with one — rendering to mrkdwn and parsing back yields,
after normalisation of both sides, equal segment sequences, for every
external environment whose `emoji.emojize` leaves alias-free (colon-free)
text unchanged, as the real library does. -/
theorem mrkdwn_roundtrip_safe_family :
    ∀ (ctx : SlackCtx) (t : Char) (fld : Field) (p1 f p2 : List Char),
      (∀ s : List Char, (∀ c ∈ s, c ≠ ':') → ctx.emojize s = s) →
      (t, fld) ∈ ([('*', Field.bold), ('_', Field.italic), ('~', Field.strike)]
        : List (Char × Field)) →
      (∀ c ∈ p1 ++ f ++ p2, delimFree c = true) →
      f ≠ [] →
      (∀ c, f.head? = some c → pyIsSpace c = false) →
      (∀ c, f.getLast? = some c → pyIsSpace c = false) →
      (∀ c, p1.getLast? = some c → outsideChar c = false) →
      (∀ c, p2.head? = some c → outsideChar c = false) →
      (from_mrkdwn ctx (to_mrkdwn [{ text := p1 },
          Segment.applyChange { text := f } (fld, .flag true), { text := p2 }])).map normalise =
        .ok (normalise [{ text := p1 },
          Segment.applyChange { text := f } (fld, .flag true), { text := p2 }]) := by
  intro ctx t fld p1 f p2 hemo htf hsafe hfne hfh hfl hp1l hp2h
  have hp1 : ∀ c ∈ p1, delimFree c = true := fun c hc => hsafe c (by simp [hc])
  have hf : ∀ c ∈ f, delimFree c = true := fun c hc => hsafe c (by simp [hc])
  have hp2 : ∀ c ∈ p2, delimFree c = true := fun c hc => hsafe c (by simp [hc])
  have hkey : tagChar t = true ∧ t ≠ btick ∧ slackTagField [t] = fld := by
    have h2 := htf
    simp only [List.mem_cons, List.not_mem_nil, or_false] at h2
    rcases h2 with h | h | h <;>
    · injection h with h1 h2
      subst h1
      subst h2
      exact ⟨by decide, by decide, rfl⟩
  rw [to_mrkdwn_safe t fld p1 f p2 htf hfne]
  rw [from_mrkdwn_safe ctx t fld p1 f p2 hemo hkey.1 hkey.2.1 hkey.2.2 hp1 hf hp2 hfne hfh hfl
    hp1l hp2h]
  simp only [Except.map]
  rw [normalise_parse_eq t fld p1 f p2 htf hfne]

/-- Claim C8 witness: the amended round trip instantiated at
`A `, bold `B`, ` C`. -/
theorem mrkdwn_roundtrip_safe_family_witness :
    (from_mrkdwn {} (to_mrkdwn [{ text := ("A ").data },
        Segment.applyChange { text := ("B").data } (Field.bold, .flag true),
        { text := (" C").data }])).map normalise =
      .ok (normalise [{ text := ("A ").data },
        Segment.applyChange { text := ("B").data } (Field.bold, .flag true),
        { text := (" C").data }]) :=
  mrkdwn_roundtrip_safe_family {} '*' Field.bold (("A ").data) (("B").data) ((" C").data)
    (fun _ _ => rfl) (by decide) (by decide) (by decide)
    (by intro c hc; cases hc; decide)
    (by intro c hc; cases hc; decide)
    (by intro c hc; cases hc; decide)
    (by intro c hc; cases hc; decide)

/-- Claim C10: every segment rendered to Telegram HTML is wrapped in at most
one formatting construct, chosen by the fixed precedence link over pre over
code over bold over italic, with the remaining attributes silently dropped;
in particular a segment that is both bold and italic is emitted wrapped only
in a bold tag. -/
theorem to_html_single_construct_by_precedence :
    (∀ s : Segment, to_html s = renderWrap (claimedChoice s) s.text) ∧
    to_html { text := ("x").data, bold := true, italic := true } =
      ("<b>x</b>").data := by
  constructor
  · intro s
    rcases s with ⟨text, bold, italic, strike, code, pre, link⟩
    cases link <;> cases pre <;> cases code <;> cases bold <;> cases italic <;> rfl
  · rfl

end IMMP
